import Mathlib

/-
  Verification of the InteliCanvas core pipeline:
  - the scene-graph reducer (src/server/reducer.ts) with its ordering engine
    (src/shared/layering.ts),
  - the command grammar / validator (src/shared/commands.ts, src/shared/ws.ts,
    src/shared/scene.ts, src/shared/vectorShapes.ts),
  - the normalizer / safety guard / geometric stabilizer for untrusted model
    output (the Gemini director module).

  Untrusted input is modeled as JSON values (JVal below); JavaScript objects are
  association lists of string keys in insertion order, mirroring object spread,
  `in` tests, and property access.  JS numbers are modeled as rationals (the
  code under verification performs only arithmetic, comparison, and Math.floor
  on them).  The typed reducer is modeled over a typed SceneGraph, with the
  objects record modeled as a function from ids to optional objects.
-/

/-! # JSON values -/

/-- A JSON-like JavaScript value.  Object fields are kept as an ordered
association list, matching JS object key insertion order. -/
inductive JVal where
  | null
  | jbool (b : Bool)
  | num (q : Rat)
  | str (s : String)
  | arr (xs : List JVal)
  | obj (fs : List (String × JVal))

mutual

/-- Boolean equality on JSON values (structural). -/
def jvalBEq : JVal → JVal → Bool
  | .null, .null => true
  | .jbool a, .jbool b => a = b
  | .num a, .num b => a = b
  | .str a, .str b => a = b
  | .arr a, .arr b => jlistBEq a b
  | .obj a, .obj b => jfieldsBEq a b
  | _, _ => false

/-- Boolean equality on JSON arrays. -/
def jlistBEq : List JVal → List JVal → Bool
  | [], [] => true
  | x :: xs, y :: ys => jvalBEq x y && jlistBEq xs ys
  | _, _ => false

/-- Boolean equality on JSON object field lists. -/
def jfieldsBEq : List (String × JVal) → List (String × JVal) → Bool
  | [], [] => true
  | (k, v) :: xs, (l, w) :: ys => k = l && jvalBEq v w && jfieldsBEq xs ys
  | _, _ => false

end

theorem jvalBEq_iff : ∀ a b : JVal, jvalBEq a b = true ↔ a = b := by
  have main : ∀ n : Nat, ∀ a b : JVal, sizeOf a ≤ n → (jvalBEq a b = true ↔ a = b) := by
    intro n
    induction n with
    | zero =>
      intro a b h
      cases a <;> simp at h
    | succ n ih =>
      have ihList : ∀ xs ys : List JVal, sizeOf xs ≤ n + 1 →
          (jlistBEq xs ys = true ↔ xs = ys) := by
        intro xs
        induction xs with
        | nil => intro ys h; cases ys <;> simp [jlistBEq]
        | cons x xt ihx =>
          intro ys h
          cases ys with
          | nil => simp [jlistBEq]
          | cons y yt =>
            simp only [jlistBEq, Bool.and_eq_true]
            have hx : sizeOf x ≤ n := by
              have := List.sizeOf_lt_of_mem (List.mem_cons_self x xt)
              omega
            have ht : sizeOf xt ≤ n + 1 := by
              simp only [List.cons.sizeOf_spec] at h
              omega
            rw [ih x y hx, ihx yt ht]
            simp
      have ihFields : ∀ xs ys : List (String × JVal), sizeOf xs ≤ n + 1 →
          (jfieldsBEq xs ys = true ↔ xs = ys) := by
        intro xs
        induction xs with
        | nil => intro ys h; cases ys <;> simp [jfieldsBEq]
        | cons x xt ihx =>
          intro ys h
          cases ys with
          | nil => cases x; simp [jfieldsBEq]
          | cons y yt =>
            cases x with
            | mk k v =>
              cases y with
              | mk l w =>
                simp only [jfieldsBEq, Bool.and_eq_true]
                have hv : sizeOf v ≤ n := by
                  have hmem := List.sizeOf_lt_of_mem (List.mem_cons_self (k, v) xt)
                  simp only [Prod.mk.sizeOf_spec] at hmem
                  omega
                have ht : sizeOf xt ≤ n + 1 := by
                  simp only [List.cons.sizeOf_spec] at h
                  omega
                rw [ih v w hv, ihx yt ht]
                simp only [decide_eq_true_eq]
                constructor
                · rintro ⟨⟨h1, h2⟩, h3⟩
                  subst h1; subst h2; subst h3; rfl
                · intro hh
                  injection hh with h1 h2
                  injection h1 with hk hv2
                  exact ⟨⟨hk, hv2⟩, h2⟩
      intro a b h
      cases a with
      | null => cases b <;> simp [jvalBEq]
      | jbool x => cases b <;> simp [jvalBEq]
      | num x => cases b <;> simp [jvalBEq]
      | str x => cases b <;> simp [jvalBEq]
      | arr xs =>
        cases b with
        | null => simp [jvalBEq]
        | jbool y => simp [jvalBEq]
        | num y => simp [jvalBEq]
        | str y => simp [jvalBEq]
        | obj ys => simp [jvalBEq]
        | arr ys =>
          have hx : sizeOf xs ≤ n + 1 := by
            simp only [JVal.arr.sizeOf_spec] at h; omega
          simp only [jvalBEq]
          rw [ihList xs ys hx]
          simp
      | obj xs =>
        cases b with
        | null => simp [jvalBEq]
        | jbool y => simp [jvalBEq]
        | num y => simp [jvalBEq]
        | str y => simp [jvalBEq]
        | arr ys => simp [jvalBEq]
        | obj ys =>
          have hx : sizeOf xs ≤ n + 1 := by
            simp only [JVal.obj.sizeOf_spec] at h; omega
          simp only [jvalBEq]
          rw [ihFields xs ys hx]
          simp
  intro a b
  exact main (sizeOf a) a b (Nat.le_refl _)

instance : DecidableEq JVal := fun a b =>
  decidable_of_iff (jvalBEq a b = true) (jvalBEq_iff a b)

/-! ## JavaScript object primitives

JS objects have unique keys; fields are kept in insertion order.  `getKey`
models property read, `setKey` models a spread-update `\x7b...o, k: v\x7d`
(replace in place if the key exists, else append), and `removeKey` models rest
destructuring that drops a key. -/

/-- Property read on a field list. -/
def getKey : List (String × JVal) → String → Option JVal
  | [], _ => none
  | (k1, v1) :: rest, k => if k1 = k then some v1 else getKey rest k

/-- Key-presence test, the JS `in` operator. -/
def hasKey (fs : List (String × JVal)) (k : String) : Bool :=
  (getKey fs k).isSome

/-- Spread-update: replace the binding of `k` in place, else append it. -/
def setKey : List (String × JVal) → String → JVal → List (String × JVal)
  | [], k, v => [(k, v)]
  | (k1, v1) :: rest, k, v =>
    if k1 = k then (k, v) :: rest else (k1, v1) :: setKey rest k v

/-- Rest destructuring: drop the binding of `k`, keeping field order. -/
def removeKey : List (String × JVal) → String → List (String × JVal)
  | [], _ => []
  | (k1, v1) :: rest, k =>
    if k1 = k then removeKey rest k else (k1, v1) :: removeKey rest k

/-- Property access `j.k`.  Non-objects yield undefined for every property
name the modeled code reads (no array index or prototype properties are
accessed). -/
def getField (j : JVal) (k : String) : Option JVal :=
  match j with
  | .obj fs => getKey fs k
  | _ => none

/-- The JS `k in j` test (false on non-objects for the keys used here). -/
def hasField (j : JVal) (k : String) : Bool :=
  match j with
  | .obj fs => hasKey fs k
  | _ => false

/-- Spread-update of an object value; every use site is guarded so that `j`
is an object. -/
def setField (j : JVal) (k : String) (v : JVal) : JVal :=
  match j with
  | .obj fs => .obj (setKey fs k v)
  | _ => j

/-- JS truthiness.  Rationals have no NaN, otherwise this matches ToBoolean
on JSON values. -/
def jTruthy : JVal → Bool
  | .null => false
  | .jbool b => b
  | .num q => decide (q ≠ 0)
  | .str s => decide (s ≠ "")
  | .arr _ => true
  | .obj _ => true

/-- The guard `x && typeof x === "object"`: a truthy object-typed value
(object or array; null is object-typed but falsy). -/
def jIsObj : JVal → Bool
  | .obj _ => true
  | .arr _ => true
  | _ => false

/-- Read a field as a string (some s iff the field holds a string). -/
def getStrField (j : JVal) (k : String) : Option String :=
  match getField j k with
  | some (.str s) => some s
  | _ => none

/-- The pattern `typeof j.k === "number" ? j.k : d`. -/
def numFieldD (j : JVal) (k : String) (d : Rat) : Rat :=
  match getField j k with
  | some (.num q) => q
  | _ => d

/-- Truthiness of a property (`j.k` is undefined, hence falsy, when absent). -/
def truthyField (j : JVal) (k : String) : Bool :=
  match getField j k with
  | some v => jTruthy v
  | none => false

/-! # Typed scene model (src/shared/scene.ts)

The reducer operates on values that already passed the zod validator, so its
state is modeled with the typed schema.  Vector shapes are opaque to the
reducer (it copies them without inspection); they are carried as JSON values,
the same representation the untyped stabilizer functions use. -/

inductive SceneLayer where
  | sky
  | background
  | ground
  | foreground
  deriving DecidableEq

inductive SceneObjectStatus where
  | preview
  | committed
  deriving DecidableEq

structure Transform where
  x : Rat
  y : Rat
  scale : Rat
  rotation : Rat
  deriving DecidableEq

/-- A partial transform, as produced by spreading patch fields over an
existing transform before clamping (each field present or absent). -/
structure PartialTransform where
  x : Option Rat := none
  y : Option Rat := none
  scale : Option Rat := none
  rotation : Option Rat := none
  deriving DecidableEq

structure SceneIntent where
  description : String
  mood : Option String := none
  paletteHint : Option String := none
  deriving DecidableEq

structure SceneObject where
  id : String
  status : SceneObjectStatus
  layer : SceneLayer
  transform : Transform
  semanticTag : Option String := none
  shapes : List JVal
  deriving DecidableEq

/-- The objects record of a scene graph, modeled as a partial map. -/
def ObjectsMap := String → Option SceneObject

structure SceneGraph where
  intent : Option SceneIntent
  objects : ObjectsMap
  order : List String

/-! # Layering (src/shared/layering.ts) -/

def HORIZON_Y : Rat := 45

def BACKDROP_TAGS : List String :=
  ["sky", "field", "grass", "ground", "water", "sand", "background_backdrop", "backdrop"]

/-- JS toLowerCase, modeled characterwise (the strings the pipeline lowercases
are ASCII, where this agrees with toLowerCase). -/
def strToLower (s : String) : String :=
  String.mk (s.data.map Char.toLower)

def isBackdrop : Option String → Bool
  | none => false
  | some t => BACKDROP_TAGS.contains (strToLower t)

/-- LAYER_RANK record.  The source defaults unknown layer strings to rank 9;
the typed layer enum makes that default unreachable. -/
def getLayerRank : SceneLayer → Nat
  | .sky => 0
  | .background => 1
  | .ground => 2
  | .foreground => 3

def getBackdropRank (semanticTag : Option String) : Nat :=
  if isBackdrop semanticTag then 0 else 1

def computeOrderKey (layer : SceneLayer) (semanticTag : Option String) : Nat :=
  getLayerRank layer * 100 + getBackdropRank semanticTag * 10

/-! # Reducer (src/server/reducer.ts) -/

/-- Math.max(lo, Math.min(hi, n)). -/
def clamp (n lo hi : Rat) : Rat := max lo (min hi n)

def clampTransform (t : PartialTransform) : Transform :=
  { x := clamp (t.x.getD 50) 0 100
    y := clamp (t.y.getD 50) 0 100
    scale := clamp (t.scale.getD 1) (1 / 10) 3
    rotation := clamp (t.rotation.getD 0) (-180) 180 }

def orderKey (obj : SceneObject) : Nat :=
  computeOrderKey obj.layer obj.semanticTag

/-- A patch, as the reducer reads it (PatchSchema's fields are z.any(), read
back as Partial of SceneObject; a present semanticTag is a string). -/
structure Patch where
  layer : Option SceneLayer := none
  status : Option SceneObjectStatus := none
  transform : Option PartialTransform := none
  semanticTag : Option String := none
  shapes : Option (List JVal) := none
  deriving DecidableEq

structure Point where
  x : Rat
  y : Rat
  deriving DecidableEq

structure GradientStop where
  offset : Rat
  color : String
  deriving DecidableEq

/-- Linear gradient payload (kind is always the literal "linear"). -/
structure Gradient where
  fromP : Point
  toP : Point
  stops : List GradientStop
  deriving DecidableEq

inductive DrawingCommand where
  | set_scene_intent (intent : Option SceneIntent)
  | add_preview_object (object : SceneObject)
  | update_preview_object (id : String) (patch : Patch)
  | commit_preview_object (id : String)
  | cancel_preview_object (id : String)
  | add_object (object : SceneObject)
  | update_object (id : String) (patch : Patch)
  | delete_object (id : String)
  | set_background_gradient (gradient : Gradient)
  | set_ground_fill (fill : String)
  | set_path (id : String) (bezierPoints : List Point) (widthNear : Rat) (widthFar : Rat)
  | batch (commands : List DrawingCommand)

/-- Pointwise update of the objects record: spread-with-one-binding when the
value is some, property deletion when it is none. -/
def updObjects (f : ObjectsMap) (id : String) (v : Option SceneObject) : ObjectsMap :=
  fun x => if x = id then v else f x

/-- The index scan of insertIntoOrder: walk the order (with `id` already
filtered out), stepping over entries whose object is missing (the loop's
`continue`) or whose key is not greater than `k`, and splice `id` in at the
first entry whose key is strictly greater. -/
def insertScan (objects : ObjectsMap) (k : Nat) (id : String) : List String → List String
  | [] => [id]
  | x :: xs =>
    match objects x with
    | none => x :: insertScan objects k id xs
    | some other =>
      if orderKey other > k then id :: x :: xs
      else x :: insertScan objects k id xs

def insertIntoOrder (scene : SceneGraph) (id : String) : List String :=
  match scene.objects id with
  | none => scene.order
  | some obj =>
    insertScan scene.objects (orderKey obj) id (scene.order.filter (fun x => x ≠ id))

def createEmptyScene : SceneGraph :=
  { intent := none, objects := fun _ => none, order := [] }

/-- The add_preview_object / add_object case. -/
def applyAdd (scene : SceneGraph) (obj : SceneObject) : SceneGraph :=
  match scene.objects obj.id with
  | some _ => scene
  | none =>
    let nextObjects := updObjects scene.objects obj.id (some obj)
    let nextScene : SceneGraph := { scene with objects := nextObjects }
    let nextOrder := insertIntoOrder nextScene obj.id
    { scene with objects := nextObjects, order := nextOrder }

/-- Spreading a patch's transform over the existing one:
`\x7b...existing.transform, ...patch.transform\x7d`. -/
def mergePartial (t : Transform) (p : PartialTransform) : PartialTransform :=
  { x := some (p.x.getD t.x)
    y := some (p.y.getD t.y)
    scale := some (p.scale.getD t.scale)
    rotation := some (p.rotation.getD t.rotation) }

/-- The merged object an update produces: each present patch field replaces
the existing one, with a present transform spread over the existing transform
and clamped. -/
def mergeObjectPatch (existing : SceneObject) (patch : Patch) : SceneObject :=
  let mergedTransform :=
    match patch.transform with
    | some pt => clampTransform (mergePartial existing.transform pt)
    | none => existing.transform
  { existing with
      layer := patch.layer.getD existing.layer
      status := patch.status.getD existing.status
      semanticTag :=
        match patch.semanticTag with
        | some t => some t
        | none => existing.semanticTag
      transform := mergedTransform
      shapes := patch.shapes.getD existing.shapes }

/-- The update_preview_object / update_object case. -/
def applyUpdate (scene : SceneGraph) (id : String) (patch : Patch) : SceneGraph :=
  match scene.objects id with
  | none => scene
  | some existing =>
    let updated : SceneObject := mergeObjectPatch existing patch
    let nextObjects := updObjects scene.objects id (some updated)
    let beforeK := orderKey existing
    let afterK := orderKey updated
    if beforeK = afterK then { scene with objects := nextObjects }
    else
      let nextScene : SceneGraph := { scene with objects := nextObjects }
      { scene with objects := nextObjects, order := insertIntoOrder nextScene id }

/-- The commit_preview_object case. -/
def applyCommit (scene : SceneGraph) (id : String) : SceneGraph :=
  match scene.objects id with
  | none => scene
  | some existing =>
    if existing.status = .committed then scene
    else
      { scene with
          objects := updObjects scene.objects id (some { existing with status := .committed }) }

/-- The cancel_preview_object / delete_object case. -/
def applyDelete (scene : SceneGraph) (id : String) : SceneGraph :=
  match scene.objects id with
  | none => scene
  | some _ =>
    { scene with
        objects := updObjects scene.objects id none
        order := scene.order.filter (fun x => x ≠ id) }

mutual

def applyCommand (scene : SceneGraph) : DrawingCommand → SceneGraph
  | .set_scene_intent intent => { scene with intent := intent }
  | .add_preview_object obj => applyAdd scene obj
  | .update_preview_object id patch => applyUpdate scene id patch
  | .commit_preview_object id => applyCommit scene id
  | .cancel_preview_object id => applyDelete scene id
  | .add_object obj => applyAdd scene obj
  | .update_object id patch => applyUpdate scene id patch
  | .delete_object id => applyDelete scene id
  | .set_background_gradient _ => scene
  | .set_ground_fill _ => scene
  | .set_path _ _ _ _ => scene
  | .batch cmds => applyCommandList scene cmds

/-- The loop inside the batch case (and inside applyCommands). -/
def applyCommandList (scene : SceneGraph) : List DrawingCommand → SceneGraph
  | [] => scene
  | c :: cs => applyCommandList (applyCommand scene c) cs

end

def applyCommands (scene : SceneGraph) (commands : List DrawingCommand) : SceneGraph :=
  applyCommandList scene commands

/-! # Basic reducer lemmas -/

theorem applyCommandList_append (a : List DrawingCommand) :
    ∀ (s : SceneGraph) (b : List DrawingCommand),
      applyCommandList s (a ++ b) = applyCommandList (applyCommandList s a) b := by
  induction a with
  | nil => intro s b; rfl
  | cons c cs ih => intro s b; simp only [List.cons_append, applyCommandList]; exact ih _ b

/-- C3: the reducer is deterministic (a pure function, so repeated application
from the same start is structurally equal), applying concatenated command
lists equals sequential application, and a batch command is exactly the
sequential application of its inner commands. -/
theorem reducer_determinism_append_batch (S : SceneGraph)
    (cs1 cs2 cs : List DrawingCommand) :
    applyCommands S cs1 = applyCommands S cs1 ∧
    applyCommands (applyCommands S cs1) cs2 = applyCommands S (cs1 ++ cs2) ∧
    applyCommand S (.batch cs) = applyCommands S cs := by
  refine ⟨rfl, ?_, rfl⟩
  exact (applyCommandList_append cs1 S cs2).symm

/-- C10: set_background_gradient, set_ground_fill and set_path are accepted by
the command grammar but are identity operations in the reducer. -/
theorem passthrough_commands_identity (S : SceneGraph) (g : Gradient)
    (fill : String) (id : String) (pts : List Point) (wn wf : Rat) :
    applyCommand S (.set_background_gradient g) = S ∧
    applyCommand S (.set_ground_fill fill) = S ∧
    applyCommand S (.set_path id pts wn wf) = S :=
  ⟨rfl, rfl, rfl⟩

/-- C5: commit_preview_object is a no-op on an absent id and on an
already-committed object, and on a preview object it changes exactly that
object's status to committed, leaving intent, order and all other objects
untouched. -/
theorem commit_preview_object_lifecycle (S : SceneGraph) (id : String) :
    (S.objects id = none → applyCommand S (.commit_preview_object id) = S) ∧
    (∀ o, S.objects id = some o → o.status = .committed →
      applyCommand S (.commit_preview_object id) = S) ∧
    (∀ o, S.objects id = some o → o.status = .preview →
      (applyCommand S (.commit_preview_object id)).intent = S.intent ∧
      (applyCommand S (.commit_preview_object id)).order = S.order ∧
      (applyCommand S (.commit_preview_object id)).objects id =
        some { o with status := .committed } ∧
      ∀ j, j ≠ id → (applyCommand S (.commit_preview_object id)).objects j = S.objects j) := by
  refine ⟨?_, ?_, ?_⟩
  · intro h
    simp only [applyCommand, applyCommit, h]
  · intro o ho hst
    simp only [applyCommand, applyCommit, ho, hst, if_pos]
  · intro o ho hst
    have hne : ¬ (o.status = SceneObjectStatus.committed) := by
      rw [hst]; intro hcon; cases hcon
    refine ⟨?_, ?_, ?_, ?_⟩
    · simp only [applyCommand, applyCommit, ho, if_neg hne]
    · simp only [applyCommand, applyCommit, ho, if_neg hne]
    · simp [applyCommand, applyCommit, ho, if_neg hne, updObjects]
    · intro j hj
      simp only [applyCommand, applyCommit, ho, if_neg hne, updObjects, if_neg hj]

def witPreviewObj : SceneObject :=
  { id := "a"
    status := .preview
    layer := .ground
    transform := { x := 50, y := 70, scale := 1, rotation := 0 }
    semanticTag := none
    shapes := [] }

def witScene : SceneGraph :=
  { intent := none
    objects := fun x => if x = "a" then some witPreviewObj else none
    order := ["a"] }

/-- Witness for C5 at a concrete scene: committing the absent id "b" is a
no-op, and committing the preview object "a" sets exactly its status. -/
theorem commit_preview_object_lifecycle_witness :
    applyCommand witScene (.commit_preview_object "b") = witScene ∧
    (applyCommand witScene (.commit_preview_object "a")).objects "a" =
      some { witPreviewObj with status := .committed } :=
  ⟨(commit_preview_object_lifecycle witScene "b").1 (by decide),
   ((commit_preview_object_lifecycle witScene "a").2.2 witPreviewObj (by decide) (by decide)).2.2.1⟩

/-- The declared bounds of each transform field. -/
def transformInBounds (t : Transform) : Prop :=
  0 ≤ t.x ∧ t.x ≤ 100 ∧ 0 ≤ t.y ∧ t.y ≤ 100 ∧
  1 / 10 ≤ t.scale ∧ t.scale ≤ 3 ∧ -180 ≤ t.rotation ∧ t.rotation ≤ 180

/-- A full transform viewed as the partial transform the reducer clamps. -/
def toPartial (t : Transform) : PartialTransform :=
  { x := some t.x, y := some t.y, scale := some t.scale, rotation := some t.rotation }

theorem clamp_of_between {n lo hi : Rat} (h1 : lo ≤ n) (h2 : n ≤ hi) :
    clamp n lo hi = n := by
  unfold clamp
  rw [min_eq_right h2, max_eq_right h1]

/-- C8: clampTransform saturates every field to its declared bound and never
rejects; on a transform already inside bounds it is the identity, and on
x 150, y -50, scale 10, rotation 500 it yields x 100, y 0, scale 3,
rotation 180. -/
theorem clampTransform_saturates :
    (∀ t : Transform, transformInBounds t → clampTransform (toPartial t) = t) ∧
    clampTransform
        { x := some 150, y := some (-50), scale := some 10, rotation := some 500 } =
      { x := 100, y := 0, scale := 3, rotation := 180 } := by
  constructor
  · rintro t ⟨h1, h2, h3, h4, h5, h6, h7, h8⟩
    unfold clampTransform toPartial
    simp only [Option.getD_some]
    cases t
    congr 1 <;> exact clamp_of_between (by assumption) (by assumption)
  · unfold clampTransform clamp
    norm_num [min_def, max_def]

/-- Witness for C8 at a concrete in-bounds transform. -/
theorem clampTransform_saturates_witness :
    clampTransform
        (toPartial { x := 25, y := 75, scale := 2, rotation := -90 }) =
      { x := 25, y := 75, scale := 2, rotation := -90 } :=
  clampTransform_saturates.1 _ (by unfold transformInBounds; norm_num)

/-! # Scene invariants (C1, C2) -/

/-- Wherever both ids resolve to objects, the first has order key at most the
second. -/
def keyLE (f : ObjectsMap) (a b : String) : Prop :=
  ∀ oa ob, f a = some oa → f b = some ob → orderKey oa ≤ orderKey ob

/-- The reducer's maintained invariant: no duplicate ids in the order, the
order is exactly the key set of the objects record, and the order is sorted by
order key. -/
def SceneInv (S : SceneGraph) : Prop :=
  S.order.Nodup ∧
  (∀ id, id ∈ S.order ↔ ∃ o, S.objects id = some o) ∧
  S.order.Pairwise (keyLE S.objects)

theorem updObjects_self (f : ObjectsMap) (id : String) (v : Option SceneObject) :
    updObjects f id v id = v := by
  simp [updObjects]

theorem updObjects_ne (f : ObjectsMap) (id : String) (v : Option SceneObject)
    {x : String} (h : x ≠ id) : updObjects f id v x = f x := by
  simp [updObjects, h]

theorem insertScan_mem (f : ObjectsMap) (k : Nat) (id : String) :
    ∀ (l : List String) (x : String), x ∈ insertScan f k id l ↔ x = id ∨ x ∈ l := by
  intro l
  induction l with
  | nil => intro x; simp [insertScan]
  | cons y ys ih =>
    intro x
    cases hf : f y with
    | none =>
      simp only [insertScan, hf, List.mem_cons, ih]
      all_goals tauto
    | some o =>
      by_cases hk : orderKey o > k
      · simp only [insertScan, hf, if_pos hk, List.mem_cons]
      · simp only [insertScan, hf, if_neg hk, List.mem_cons, ih]
        all_goals tauto

theorem insertScan_nodup (f : ObjectsMap) (k : Nat) (id : String) :
    ∀ (l : List String), id ∉ l → l.Nodup → (insertScan f k id l).Nodup := by
  intro l
  induction l with
  | nil => intro _ _; simp [insertScan]
  | cons y ys ih =>
    intro hid hnd
    have hyid : y ≠ id := fun h => hid (h ▸ List.mem_cons_self y ys)
    have hidys : id ∉ ys := fun h => hid (List.mem_cons_of_mem y h)
    have hynd := (List.nodup_cons.mp hnd).1
    have hysnd := (List.nodup_cons.mp hnd).2
    cases hf : f y with
    | none =>
      simp only [insertScan, hf]
      refine List.nodup_cons.mpr ⟨?_, ih hidys hysnd⟩
      rw [insertScan_mem]
      rintro (h | h)
      · exact hyid h
      · exact hynd h
    | some o =>
      simp only [insertScan, hf]
      by_cases hk : orderKey o > k
      · rw [if_pos hk]
        refine List.nodup_cons.mpr ⟨?_, hnd⟩
        simp only [List.mem_cons]
        rintro (h | h)
        · exact hyid h.symm
        · exact hidys h
      · rw [if_neg hk]
        refine List.nodup_cons.mpr ⟨?_, ih hidys hysnd⟩
        rw [insertScan_mem]
        rintro (h | h)
        · exact hyid h
        · exact hynd h

theorem insertScan_pairwise (f : ObjectsMap) (k : Nat) (id : String)
    (obj : SceneObject) (hid : f id = some obj) (hk : orderKey obj = k) :
    ∀ (l : List String), l.Pairwise (keyLE f) →
      (insertScan f k id l).Pairwise (keyLE f) := by
  intro l
  induction l with
  | nil =>
    intro _
    simp [insertScan, List.pairwise_singleton]
  | cons y ys ih =>
    intro hp
    have hy : ∀ z ∈ ys, keyLE f y z := (List.pairwise_cons.mp hp).1
    have hys : ys.Pairwise (keyLE f) := (List.pairwise_cons.mp hp).2
    cases hf : f y with
    | none =>
      simp only [insertScan, hf]
      refine List.pairwise_cons.mpr ⟨?_, ih hys⟩
      intro z hz oy oz hoy hoz
      rw [hf] at hoy
      cases hoy
    | some o =>
      simp only [insertScan, hf]
      by_cases hko : orderKey o > k
      · rw [if_pos hko]
        refine List.pairwise_cons.mpr ⟨?_, hp⟩
        intro z hz oid oz hoid hoz
        rw [hid] at hoid
        injection hoid with hoid
        subst hoid
        rw [hk]
        rcases List.mem_cons.mp hz with h | h
        · subst h
          rw [hf] at hoz
          injection hoz with hoz
          subst hoz
          omega
        · have := hy z h o oz hf hoz
          omega
      · rw [if_neg hko]
        refine List.pairwise_cons.mpr ⟨?_, ih hys⟩
        intro z hz oy oz hoy hoz
        rw [insertScan_mem] at hz
        rcases hz with h | h
        · subst h
          rw [hid] at hoz
          injection hoz with hoz
          subst hoz
          rw [hf] at hoy
          injection hoy with hoy
          subst hoy
          omega
        · exact hy z h oy oz hoy hoz

theorem keyLE_upd_same_key {f : ObjectsMap} {i : String} {o o2 : SceneObject}
    (hf : f i = some o) (hkey : orderKey o2 = orderKey o) :
    ∀ a b, keyLE f a b → keyLE (updObjects f i (some o2)) a b := by
  intro a b h oa ob ha hb
  by_cases hai : a = i
  · subst hai
    rw [updObjects_self] at ha
    injection ha with ha
    subst ha
    by_cases hbi : b = a
    · subst hbi
      rw [updObjects_self] at hb
      injection hb with hb
      subst hb
      exact Nat.le_refl _
    · rw [updObjects_ne f a _ hbi] at hb
      have := h o ob hf hb
      omega
  · rw [updObjects_ne f i _ hai] at ha
    by_cases hbi : b = i
    · subst hbi
      rw [updObjects_self] at hb
      injection hb with hb
      subst hb
      have := h oa o ha hf
      omega
    · rw [updObjects_ne f i _ hbi] at hb
      exact h oa ob ha hb

theorem keyLE_upd_of_ne {f : ObjectsMap} {i : String} {v : Option SceneObject}
    {a b : String} (hai : a ≠ i) (hbi : b ≠ i) :
    keyLE f a b → keyLE (updObjects f i v) a b := by
  intro h oa ob ha hb
  rw [updObjects_ne f i v hai] at ha
  rw [updObjects_ne f i v hbi] at hb
  exact h oa ob ha hb

theorem inv_applyAdd (S : SceneGraph) (obj : SceneObject) (h : SceneInv S) :
    SceneInv (applyAdd S obj) := by
  obtain ⟨hnd, hbij, hpw⟩ := h
  cases hS : S.objects obj.id with
  | some o =>
    simp only [applyAdd, hS]
    exact ⟨hnd, hbij, hpw⟩
  | none =>
    have hidnot : obj.id ∉ S.order := by
      intro hmem
      rcases (hbij obj.id).mp hmem with ⟨o, ho⟩
      rw [hS] at ho
      cases ho
    have hfilter : S.order.filter (fun x => x ≠ obj.id) = S.order := by
      apply List.filter_eq_self.mpr
      intro a ha
      simp only [decide_eq_true_eq]
      intro hcon
      exact hidnot (hcon ▸ ha)
    have hself : updObjects S.objects obj.id (some obj) obj.id = some obj :=
      updObjects_self _ _ _
    have hres : applyAdd S obj =
        { S with
            objects := updObjects S.objects obj.id (some obj)
            order := insertScan (updObjects S.objects obj.id (some obj))
                (orderKey obj) obj.id S.order } := by
      simp only [applyAdd, hS, insertIntoOrder, hself, hfilter]
    rw [hres]
    have hpw2 : S.order.Pairwise (keyLE (updObjects S.objects obj.id (some obj))) := by
      refine List.Pairwise.imp_of_mem ?_ hpw
      intro a b ha hb hab
      have ha2 : a ≠ obj.id := fun hc => hidnot (hc ▸ ha)
      have hb2 : b ≠ obj.id := fun hc => hidnot (hc ▸ hb)
      exact keyLE_upd_of_ne ha2 hb2 hab
    refine ⟨?_, ?_, ?_⟩
    · exact insertScan_nodup _ _ _ S.order hidnot hnd
    · intro x
      simp only
      rw [insertScan_mem]
      constructor
      · rintro (rfl | hx)
        · exact ⟨obj, hself⟩
        · have hx2 : x ≠ obj.id := fun hc => hidnot (hc ▸ hx)
          rcases (hbij x).mp hx with ⟨o, ho⟩
          exact ⟨o, by rw [updObjects_ne _ _ _ hx2]; exact ho⟩
      · rintro ⟨o, ho⟩
        by_cases hx2 : x = obj.id
        · exact Or.inl hx2
        · right
          rw [updObjects_ne _ _ _ hx2] at ho
          exact (hbij x).mpr ⟨o, ho⟩
    · exact insertScan_pairwise _ _ _ obj hself rfl S.order hpw2

theorem inv_applyUpdate (S : SceneGraph) (i : String) (patch : Patch)
    (h : SceneInv S) : SceneInv (applyUpdate S i patch) := by
  obtain ⟨hnd, hbij, hpw⟩ := h
  cases hS : S.objects i with
  | none =>
    simp only [applyUpdate, hS]
    exact ⟨hnd, hbij, hpw⟩
  | some existing =>
    have hself : updObjects S.objects i (some (mergeObjectPatch existing patch)) i =
        some (mergeObjectPatch existing patch) := updObjects_self _ _ _
    have hbij2 : ∀ x, x ∈ S.order ↔
        ∃ o, updObjects S.objects i (some (mergeObjectPatch existing patch)) x = some o := by
      intro x
      by_cases hx : x = i
      · subst hx
        rw [updObjects_self]
        constructor
        · intro _; exact ⟨_, rfl⟩
        · intro _; exact (hbij x).mpr ⟨existing, hS⟩
      · rw [updObjects_ne _ _ _ hx]
        exact hbij x
    by_cases hk : orderKey existing = orderKey (mergeObjectPatch existing patch)
    · have hres : applyUpdate S i patch =
          { S with objects := updObjects S.objects i (some (mergeObjectPatch existing patch)) } := by
        simp only [applyUpdate, hS, if_pos hk]
      rw [hres]
      refine ⟨hnd, hbij2, ?_⟩
      exact hpw.imp (fun {a b} hab => keyLE_upd_same_key hS hk.symm a b hab)
    · have hres : applyUpdate S i patch =
          { S with
              objects := updObjects S.objects i (some (mergeObjectPatch existing patch))
              order := insertScan (updObjects S.objects i (some (mergeObjectPatch existing patch)))
                  (orderKey (mergeObjectPatch existing patch)) i
                  (S.order.filter (fun x => x ≠ i)) } := by
        simp only [applyUpdate, hS, if_neg hk, insertIntoOrder, hself]
      rw [hres]
      have hfni : i ∉ S.order.filter (fun x => x ≠ i) := by
        intro hmem
        have := (List.mem_filter.mp hmem).2
        simp at this
      have hfnd : (S.order.filter (fun x => x ≠ i)).Nodup := hnd.filter _
      have hpwf : (S.order.filter (fun x => x ≠ i)).Pairwise (keyLE S.objects) :=
        List.Pairwise.sublist (List.filter_sublist S.order) hpw
      have hpwf2 : (S.order.filter (fun x => x ≠ i)).Pairwise
          (keyLE (updObjects S.objects i (some (mergeObjectPatch existing patch)))) := by
        refine List.Pairwise.imp_of_mem ?_ hpwf
        intro a b ha hb hab
        have ha2 : a ≠ i := by
          have := (List.mem_filter.mp ha).2
          simpa using this
        have hb2 : b ≠ i := by
          have := (List.mem_filter.mp hb).2
          simpa using this
        exact keyLE_upd_of_ne ha2 hb2 hab
      refine ⟨?_, ?_, ?_⟩
      · exact insertScan_nodup _ _ _ _ hfni hfnd
      · intro x
        simp only
        rw [insertScan_mem]
        constructor
        · rintro (rfl | hx)
          · exact ⟨_, hself⟩
          · have hx2 : x ≠ i := by
              have := (List.mem_filter.mp hx).2
              simpa using this
            rw [updObjects_ne _ _ _ hx2]
            exact (hbij x).mp ((List.mem_filter.mp hx).1)
        · rintro ⟨o, ho⟩
          by_cases hx2 : x = i
          · exact Or.inl hx2
          · right
            rw [updObjects_ne _ _ _ hx2] at ho
            refine List.mem_filter.mpr ⟨(hbij x).mpr ⟨o, ho⟩, ?_⟩
            simpa using hx2
      · exact insertScan_pairwise _ _ _ _ hself rfl _ hpwf2

theorem inv_applyCommit (S : SceneGraph) (i : String) (h : SceneInv S) :
    SceneInv (applyCommit S i) := by
  obtain ⟨hnd, hbij, hpw⟩ := h
  cases hS : S.objects i with
  | none =>
    simp only [applyCommit, hS]
    exact ⟨hnd, hbij, hpw⟩
  | some existing =>
    by_cases hst : existing.status = SceneObjectStatus.committed
    · simp only [applyCommit, hS, if_pos hst]
      exact ⟨hnd, hbij, hpw⟩
    · simp only [applyCommit, hS, if_neg hst]
      refine ⟨hnd, ?_, ?_⟩
      · intro x
        dsimp only
        by_cases hx : x = i
        · subst hx
          rw [updObjects_self]
          constructor
          · intro _; exact ⟨_, rfl⟩
          · intro _; exact (hbij x).mpr ⟨existing, hS⟩
        · rw [updObjects_ne _ _ _ hx]
          exact hbij x
      · refine hpw.imp (fun {a b} hab => keyLE_upd_same_key hS ?_ a b hab)
        rfl

theorem inv_applyDelete (S : SceneGraph) (i : String) (h : SceneInv S) :
    SceneInv (applyDelete S i) := by
  obtain ⟨hnd, hbij, hpw⟩ := h
  cases hS : S.objects i with
  | none =>
    simp only [applyDelete, hS]
    exact ⟨hnd, hbij, hpw⟩
  | some existing =>
    simp only [applyDelete, hS]
    refine ⟨hnd.filter _, ?_, ?_⟩
    · intro x
      dsimp only
      by_cases hx : x = i
      · subst hx
        rw [updObjects_self]
        constructor
        · intro hmem
          have := (List.mem_filter.mp hmem).2
          simp at this
        · rintro ⟨o, ho⟩
          cases ho
      · rw [updObjects_ne _ _ _ hx]
        constructor
        · intro hmem
          exact (hbij x).mp (List.mem_filter.mp hmem).1
        · intro hex
          refine List.mem_filter.mpr ⟨(hbij x).mpr hex, ?_⟩
          simpa using hx
    · have hpwf : (S.order.filter (fun x => x ≠ i)).Pairwise (keyLE S.objects) :=
        List.Pairwise.sublist (List.filter_sublist S.order) hpw
      refine List.Pairwise.imp_of_mem ?_ hpwf
      intro a b ha hb hab
      have ha2 : a ≠ i := by
        have := (List.mem_filter.mp ha).2
        simpa using this
      have hb2 : b ≠ i := by
        have := (List.mem_filter.mp hb).2
        simpa using this
      exact keyLE_upd_of_ne ha2 hb2 hab

theorem inv_applyCommandList_of
    (cs : List DrawingCommand)
    (hc : ∀ c ∈ cs, ∀ S, SceneInv S → SceneInv (applyCommand S c)) :
    ∀ S, SceneInv S → SceneInv (applyCommandList S cs) := by
  induction cs with
  | nil => intro S h; exact h
  | cons c cr ih =>
    intro S h
    simp only [applyCommandList]
    exact ih (fun d hd => hc d (List.mem_cons_of_mem c hd)) _
      (hc c (List.mem_cons_self c cr) S h)

theorem inv_applyCommand_size :
    ∀ (n : Nat) (cmd : DrawingCommand), sizeOf cmd ≤ n →
      ∀ S, SceneInv S → SceneInv (applyCommand S cmd) := by
  intro n
  induction n with
  | zero =>
    intro cmd h
    exfalso
    cases cmd <;> simp at h
  | succ n ih =>
    intro cmd hsz S hS
    cases cmd with
    | set_scene_intent intent => exact hS
    | add_preview_object obj => exact inv_applyAdd S obj hS
    | update_preview_object i patch => exact inv_applyUpdate S i patch hS
    | commit_preview_object i => exact inv_applyCommit S i hS
    | cancel_preview_object i => exact inv_applyDelete S i hS
    | add_object obj => exact inv_applyAdd S obj hS
    | update_object i patch => exact inv_applyUpdate S i patch hS
    | delete_object i => exact inv_applyDelete S i hS
    | set_background_gradient g => exact hS
    | set_ground_fill fill => exact hS
    | set_path i pts wn wf => exact hS
    | batch cs =>
      refine inv_applyCommandList_of cs ?_ S hS
      intro c hc T hT
      refine ih c ?_ T hT
      have h1 : sizeOf c < sizeOf cs := List.sizeOf_lt_of_mem hc
      have h2 : sizeOf (DrawingCommand.batch cs) = 1 + sizeOf cs := by
        simp
      omega

theorem inv_applyCommand (cmd : DrawingCommand) (S : SceneGraph)
    (h : SceneInv S) : SceneInv (applyCommand S cmd) :=
  inv_applyCommand_size (sizeOf cmd) cmd (Nat.le_refl _) S h

theorem inv_empty : SceneInv createEmptyScene := by
  refine ⟨List.nodup_nil, ?_, List.Pairwise.nil⟩
  intro i
  constructor
  · intro h; cases h
  · rintro ⟨o, ho⟩; cases ho

theorem inv_applyCommands (cmds : List DrawingCommand) (S : SceneGraph)
    (h : SceneInv S) : SceneInv (applyCommands S cmds) :=
  inv_applyCommandList_of cmds (fun c _ T hT => inv_applyCommand c T hT) S h

/-- C1: for every scene reachable from the empty scene by drawing commands,
the order array is exactly the key set of the objects map, with no duplicate
ids. -/
theorem scene_order_objects_bijection (cmds : List DrawingCommand) :
    (∀ id ∈ (applyCommands createEmptyScene cmds).order,
      ∃ o, (applyCommands createEmptyScene cmds).objects id = some o) ∧
    (∀ id o, (applyCommands createEmptyScene cmds).objects id = some o →
      id ∈ (applyCommands createEmptyScene cmds).order) ∧
    (applyCommands createEmptyScene cmds).order.Nodup := by
  obtain ⟨hnd, hbij, _⟩ := inv_applyCommands cmds createEmptyScene inv_empty
  refine ⟨?_, ?_, hnd⟩
  · intro id hid
    exact (hbij id).mp hid
  · intro id o ho
    exact (hbij id).mpr ⟨o, ho⟩

theorem indexOf_lt_of_key_lt {f : ObjectsMap} {l : List String} {a b : String}
    {A B : SceneObject} (hpw : l.Pairwise (keyLE f)) (ha : a ∈ l) (hb : b ∈ l)
    (hA : f a = some A) (hB : f b = some B) (hlt : orderKey A < orderKey B) :
    l.indexOf a < l.indexOf b := by
  by_contra hcon
  push_neg at hcon
  have hia : l.indexOf a < l.length := List.indexOf_lt_length.mpr ha
  have hib : l.indexOf b < l.length := List.indexOf_lt_length.mpr hb
  have hga : l[l.indexOf a] = a := List.getElem_indexOf hia
  have hgb : l[l.indexOf b] = b := List.getElem_indexOf hib
  rcases Nat.lt_or_ge (l.indexOf b) (l.indexOf a) with hlt2 | hge
  · have hrel := List.pairwise_iff_getElem.mp hpw (l.indexOf b) (l.indexOf a) hib hia hlt2
    rw [hga, hgb] at hrel
    have := hrel B A hB hA
    omega
  · have heq : l.indexOf a = l.indexOf b := Nat.le_antisymm hge hcon
    have : a = b := by
      rw [← hga, ← hgb]
      congr 1
    subst this
    rw [hA] at hB
    injection hB with hB
    subst hB
    omega

/-- C2: in every scene reachable from the empty scene, a backdrop object
paints before a non-backdrop object of the same layer, and an object in an
earlier-ranked layer paints before an object in a later-ranked layer,
regardless of insertion order. -/
theorem scene_paint_order_invariant (cmds : List DrawingCommand) (a b : String)
    (A B : SceneObject)
    (hA : (applyCommands createEmptyScene cmds).objects a = some A)
    (hB : (applyCommands createEmptyScene cmds).objects b = some B)
    (hcase :
      (A.layer = B.layer ∧ isBackdrop A.semanticTag = true ∧ isBackdrop B.semanticTag = false) ∨
      getLayerRank A.layer < getLayerRank B.layer) :
    (applyCommands createEmptyScene cmds).order.indexOf a <
      (applyCommands createEmptyScene cmds).order.indexOf b := by
  obtain ⟨hnd, hbij, hpw⟩ := inv_applyCommands cmds createEmptyScene inv_empty
  have ha : a ∈ (applyCommands createEmptyScene cmds).order := (hbij a).mpr ⟨A, hA⟩
  have hb : b ∈ (applyCommands createEmptyScene cmds).order := (hbij b).mpr ⟨B, hB⟩
  have hlt : orderKey A < orderKey B := by
    unfold orderKey computeOrderKey getBackdropRank
    rcases hcase with ⟨hl, hba, hbb⟩ | hlr
    · rw [hl, hba, hbb]
      simp
    · have h1 : (if isBackdrop A.semanticTag then 0 else 1) * 10 ≤ 10 := by
        split <;> omega
      have h2 : 0 ≤ (if isBackdrop B.semanticTag then 0 else 1) * 10 := by
        omega
      omega
  exact indexOf_lt_of_key_lt hpw ha hb hA hB hlt

def witSun : SceneObject :=
  { id := "sun1"
    status := .committed
    layer := .sky
    transform := { x := 78, y := 20, scale := 1, rotation := 0 }
    semanticTag := some "sun"
    shapes := [] }

def witSky : SceneObject :=
  { id := "sky1"
    status := .committed
    layer := .sky
    transform := { x := 0, y := 0, scale := 1, rotation := 0 }
    semanticTag := some "sky"
    shapes := [] }

/-- Witness for C2: the sun is added first, yet the sky backdrop (same layer)
ends up painted before it. -/
theorem scene_paint_order_invariant_witness :
    (applyCommands createEmptyScene
        [.add_object witSun, .add_object witSky]).order.indexOf "sky1" <
      (applyCommands createEmptyScene
        [.add_object witSun, .add_object witSky]).order.indexOf "sun1" :=
  scene_paint_order_invariant [.add_object witSun, .add_object witSky]
    "sky1" "sun1" witSky witSun (by decide) (by decide)
    (Or.inl ⟨by decide, by decide, by decide⟩)

/-! # Safety guard (stripDestructiveCommands and its vocabulary tests)

The guard's vocabulary tests are case-insensitive whole-word regexes whose
alternatives are all literal words, so they are modeled as whole-word searches
over the lowercased character list. -/

/-- JS regex word character for the boundary assertion: letters, digits, or
underscore. -/
def isWordChar (c : Char) : Bool := c.isAlphanum || c = '_'

/-- The needle matches at the head of the haystack and the character right
after the match, if any, is a non-word character (the trailing word boundary;
every alternative ends in a word character). -/
def matchHere : List Char → List Char → Bool
  | [], [] => true
  | [], c :: _ => !isWordChar c
  | _ :: _, [] => false
  | n :: ns, c :: cs => n = c && matchHere ns cs

/-- Scan the haystack for a whole-word occurrence of the needle; prevWord
records whether the previous character was a word character (the leading word
boundary; every alternative starts with a word character). -/
def wordScan (needle : List Char) : Bool → List Char → Bool
  | _, [] => false
  | prevWord, c :: cs =>
    (!prevWord && matchHere needle (c :: cs)) || wordScan needle (isWordChar c) cs

/-- Case-insensitive whole-word test of one regex alternative. -/
def testWord (u w : String) : Bool :=
  wordScan (strToLower w).data false (strToLower u).data

def userExplicitlyWantsDelete (utterance : String) : Bool :=
  ["delete", "remove", "erase", "clear", "get rid", "discard", "wipe"].any
    (fun w => testWord utterance w)

def userExplicitlyWantsCancel (utterance : String) : Bool :=
  ["cancel", "discard", "undo"].any (fun w => testWord utterance w)

def userExplicitlyWantsConvert (utterance : String) : Bool :=
  ["turn into", "convert", "transform", "change into", "make it into"].any
    (fun w => testWord utterance w)

/-- The type-tag test `cmd.type === t`. -/
def cmdTypeIs (c : JVal) (t : String) : Bool :=
  decide (getField c "type" = some (.str t))

/-- The test `cmd.patch && typeof cmd.patch === "object" && "semanticTag" in
cmd.patch` (an array patch has no semanticTag property). -/
def patchHasSemTag (fs : List (String × JVal)) : Bool :=
  match getKey fs "patch" with
  | some (.obj pfs) => hasKey pfs "semanticTag"
  | _ => false

mutual

/-- stripDestructiveCommands: walk the command list, dropping unauthorized
delete_object / cancel_preview_object commands, stripping unauthorized
semanticTag patch fields, and recursing into batch; returns the kept commands
together with the counts of removed commands and stripped semanticTag
fields. -/
def stripDestructiveCommands (cmds : List JVal) (utterance : String) :
    List JVal × Nat × Nat :=
  match cmds with
  | [] => ([], 0, 0)
  | cmd :: rest =>
    let r := stripOneCommand cmd utterance
    let rs := stripDestructiveCommands rest utterance
    (r.1 ++ rs.1, r.2.1 + rs.2.1, r.2.2 + rs.2.2)

/-- The flatMap body of stripDestructiveCommands for a single command:
the source's chain of guarded early returns, in order.  Non-objects
(including arrays, whose type property is undefined) pass through
unchanged. -/
def stripOneCommand (cmd : JVal) (utterance : String) : List JVal × Nat × Nat :=
  match cmd with
  | .obj fs =>
    if getKey fs "type" = some (.str "batch") ∧ (stripBatchCommands fs utterance).isSome then
      match stripBatchCommands fs utterance with
      | some inner => ([.obj (setKey fs "commands" (.arr inner.1))], inner.2.1, inner.2.2)
      | none => ([.obj fs], 0, 0)
    else if getKey fs "type" = some (.str "delete_object") ∧
        userExplicitlyWantsDelete utterance = false then
      ([], 1, 0)
    else if getKey fs "type" = some (.str "cancel_preview_object") ∧
        userExplicitlyWantsCancel utterance = false then
      ([], 1, 0)
    else if (getKey fs "type" = some (.str "update_object") ∨
          getKey fs "type" = some (.str "update_preview_object")) ∧
        patchHasSemTag fs = true ∧
        userExplicitlyWantsConvert utterance = false then
      match getKey fs "patch" with
      | some (.obj pfs) =>
        ([.obj (setKey fs "patch" (.obj (removeKey pfs "semanticTag")))], 0, 1)
      | _ => ([.obj fs], 0, 0)
    else
      ([.obj fs], 0, 0)
  | j => ([j], 0, 0)

/-- Scan for the batch's commands field (the guard `cmd.type === "batch" &&
Array.isArray(cmd.commands)`); none when absent or not an array. -/
def stripBatchCommands (fs : List (String × JVal)) (utterance : String) :
    Option (List JVal × Nat × Nat) :=
  match fs with
  | [] => none
  | (k, v) :: rest =>
    if k = "commands" then stripArrCommands v utterance
    else stripBatchCommands rest utterance

def stripArrCommands (v : JVal) (utterance : String) :
    Option (List JVal × Nat × Nat) :=
  match v with
  | .arr xs => some (stripDestructiveCommands xs utterance)
  | _ => none

end

def delCmdX : JVal := .obj [("type", .str "delete_object"), ("id", .str "tree-1")]

/-- Counterexample to C4 as stated: the utterance "cancel that" contains the
word cancel, one of the destructive-vocabulary words the claim says keeps both
kinds of command, yet the guard still removes the delete_object command,
because the delete vocabulary list (delete/remove/erase/clear/get rid/discard/
wipe) does not include cancel or undo. -/
theorem safety_guard_vocab_counterexample :
    userExplicitlyWantsCancel "cancel that" = true ∧
    userExplicitlyWantsDelete "cancel that" = false ∧
    (stripDestructiveCommands [delCmdX] "cancel that").1 = [] := by
  refine ⟨by decide, by decide, by decide⟩

theorem getKey_setKey_ne (fs : List (String × JVal)) (k1 : String) (v : JVal)
    (k2 : String) (h : k1 ≠ k2) : getKey (setKey fs k1 v) k2 = getKey fs k2 := by
  induction fs with
  | nil => simp [setKey, getKey, h]
  | cons p rest ih =>
    cases p with
    | mk ka va =>
      by_cases hka : ka = k1
      · subst hka
        simp only [setKey, if_pos rfl]
        simp [getKey, h]
      · simp only [setKey, if_neg hka, getKey]
        by_cases hka2 : ka = k2
        · simp [hka2]
        · simp [hka2, ih]

theorem getKey_setKey_self (fs : List (String × JVal)) (k : String) (v : JVal) :
    getKey (setKey fs k v) k = some v := by
  induction fs with
  | nil => simp [setKey, getKey]
  | cons p rest ih =>
    cases p with
    | mk ka va =>
      by_cases hka : ka = k
      · subst hka
        simp [setKey, getKey]
      · simp [setKey, hka, getKey, ih]

theorem stripOne_no_delete_in_output (u : String)
    (hw : userExplicitlyWantsDelete u = false) (d x : JVal)
    (hx : x ∈ (stripOneCommand d u).1) : cmdTypeIs x "delete_object" = false := by
  cases d with
  | obj fs =>
    simp only [stripOneCommand] at hx
    by_cases h1 : getKey fs "type" = some (JVal.str "batch") ∧
        (stripBatchCommands fs u).isSome
    · rw [if_pos h1] at hx
      cases hsb : stripBatchCommands fs u with
      | none =>
        rw [hsb] at hx
        simp at hx
        subst hx
        simp [cmdTypeIs, getField, h1.1]
      | some inner =>
        rw [hsb] at hx
        simp at hx
        subst hx
        simp only [cmdTypeIs, getField]
        rw [decide_eq_false_iff_not]
        rw [getKey_setKey_ne fs "commands" _ "type" (by decide)]
        rw [h1.1]
        decide
    · rw [if_neg h1] at hx
      by_cases h2 : getKey fs "type" = some (JVal.str "delete_object") ∧
          userExplicitlyWantsDelete u = false
      · rw [if_pos h2] at hx
        simp at hx
      · rw [if_neg h2] at hx
        have hne : ¬ getKey fs "type" = some (JVal.str "delete_object") :=
          fun hc => h2 ⟨hc, hw⟩
        by_cases h3 : getKey fs "type" = some (JVal.str "cancel_preview_object") ∧
            userExplicitlyWantsCancel u = false
        · rw [if_pos h3] at hx
          simp at hx
        · rw [if_neg h3] at hx
          by_cases h4 : (getKey fs "type" = some (JVal.str "update_object") ∨
                getKey fs "type" = some (JVal.str "update_preview_object")) ∧
              patchHasSemTag fs = true ∧
              userExplicitlyWantsConvert u = false
          · rw [if_pos h4] at hx
            cases hp : getKey fs "patch" with
            | none =>
              rw [hp] at hx
              simp at hx
              subst hx
              simp [cmdTypeIs, getField, hne]
            | some pv =>
              rw [hp] at hx
              cases pv with
              | obj pfs =>
                simp at hx
                subst hx
                simp only [cmdTypeIs, getField]
                rw [decide_eq_false_iff_not]
                rw [getKey_setKey_ne fs "patch" _ "type" (by decide)]
                exact hne
              | null => simp at hx; subst hx; simp [cmdTypeIs, getField, hne]
              | jbool b => simp at hx; subst hx; simp [cmdTypeIs, getField, hne]
              | num q => simp at hx; subst hx; simp [cmdTypeIs, getField, hne]
              | str s => simp at hx; subst hx; simp [cmdTypeIs, getField, hne]
              | arr ys => simp at hx; subst hx; simp [cmdTypeIs, getField, hne]
          · rw [if_neg h4] at hx
            simp at hx
            subst hx
            simp [cmdTypeIs, getField, hne]
  | null => simp [stripOneCommand] at hx; subst hx; simp [cmdTypeIs, getField]
  | jbool b => simp [stripOneCommand] at hx; subst hx; simp [cmdTypeIs, getField]
  | num q => simp [stripOneCommand] at hx; subst hx; simp [cmdTypeIs, getField]
  | str s => simp [stripOneCommand] at hx; subst hx; simp [cmdTypeIs, getField]
  | arr xs => simp [stripOneCommand] at hx; subst hx; simp [cmdTypeIs, getField]

theorem stripOne_no_cancel_in_output (u : String)
    (hw : userExplicitlyWantsCancel u = false) (d x : JVal)
    (hx : x ∈ (stripOneCommand d u).1) : cmdTypeIs x "cancel_preview_object" = false := by
  cases d with
  | obj fs =>
    simp only [stripOneCommand] at hx
    by_cases h1 : getKey fs "type" = some (JVal.str "batch") ∧
        (stripBatchCommands fs u).isSome
    · rw [if_pos h1] at hx
      cases hsb : stripBatchCommands fs u with
      | none =>
        rw [hsb] at hx
        simp at hx
        subst hx
        simp [cmdTypeIs, getField, h1.1]
      | some inner =>
        rw [hsb] at hx
        simp at hx
        subst hx
        simp only [cmdTypeIs, getField]
        rw [decide_eq_false_iff_not]
        rw [getKey_setKey_ne fs "commands" _ "type" (by decide)]
        rw [h1.1]
        decide
    · rw [if_neg h1] at hx
      by_cases h2 : getKey fs "type" = some (JVal.str "delete_object") ∧
          userExplicitlyWantsDelete u = false
      · rw [if_pos h2] at hx
        simp at hx
      · rw [if_neg h2] at hx
        by_cases h3 : getKey fs "type" = some (JVal.str "cancel_preview_object") ∧
            userExplicitlyWantsCancel u = false
        · rw [if_pos h3] at hx
          simp at hx
        · rw [if_neg h3] at hx
          have hne : ¬ getKey fs "type" = some (JVal.str "cancel_preview_object") :=
            fun hc => h3 ⟨hc, hw⟩
          by_cases h4 : (getKey fs "type" = some (JVal.str "update_object") ∨
                getKey fs "type" = some (JVal.str "update_preview_object")) ∧
              patchHasSemTag fs = true ∧
              userExplicitlyWantsConvert u = false
          · rw [if_pos h4] at hx
            cases hp : getKey fs "patch" with
            | none =>
              rw [hp] at hx
              simp at hx
              subst hx
              simp [cmdTypeIs, getField, hne]
            | some pv =>
              rw [hp] at hx
              cases pv with
              | obj pfs =>
                simp at hx
                subst hx
                simp only [cmdTypeIs, getField]
                rw [decide_eq_false_iff_not]
                rw [getKey_setKey_ne fs "patch" _ "type" (by decide)]
                exact hne
              | null => simp at hx; subst hx; simp [cmdTypeIs, getField, hne]
              | jbool b => simp at hx; subst hx; simp [cmdTypeIs, getField, hne]
              | num q => simp at hx; subst hx; simp [cmdTypeIs, getField, hne]
              | str s => simp at hx; subst hx; simp [cmdTypeIs, getField, hne]
              | arr ys => simp at hx; subst hx; simp [cmdTypeIs, getField, hne]
          · rw [if_neg h4] at hx
            simp at hx
            subst hx
            simp [cmdTypeIs, getField, hne]
  | null => simp [stripOneCommand] at hx; subst hx; simp [cmdTypeIs, getField]
  | jbool b => simp [stripOneCommand] at hx; subst hx; simp [cmdTypeIs, getField]
  | num q => simp [stripOneCommand] at hx; subst hx; simp [cmdTypeIs, getField]
  | str s => simp [stripOneCommand] at hx; subst hx; simp [cmdTypeIs, getField]
  | arr xs => simp [stripOneCommand] at hx; subst hx; simp [cmdTypeIs, getField]

theorem stripOne_delete_kept (u : String) (c : JVal)
    (hd : cmdTypeIs c "delete_object" = true)
    (hw : userExplicitlyWantsDelete u = true) :
    stripOneCommand c u = ([c], 0, 0) := by
  cases c with
  | obj fs =>
    have hty : getKey fs "type" = some (JVal.str "delete_object") := by
      simpa [cmdTypeIs, getField] using hd
    simp only [stripOneCommand]
    rw [if_neg (by rintro ⟨h, _⟩; rw [hty] at h; exact absurd h (by decide))]
    rw [if_neg (by rintro ⟨_, h⟩; rw [hw] at h; cases h)]
    rw [if_neg (by rintro ⟨h, _⟩; rw [hty] at h; exact absurd h (by decide))]
    rw [if_neg (by
      rintro ⟨h | h, _, _⟩ <;> (rw [hty] at h; exact absurd h (by decide)))]
  | null => simp [cmdTypeIs, getField] at hd
  | jbool b => simp [cmdTypeIs, getField] at hd
  | num q => simp [cmdTypeIs, getField] at hd
  | str s => simp [cmdTypeIs, getField] at hd
  | arr xs => simp [cmdTypeIs, getField] at hd

theorem stripOne_cancel_kept (u : String) (c : JVal)
    (hd : cmdTypeIs c "cancel_preview_object" = true)
    (hw : userExplicitlyWantsCancel u = true) :
    stripOneCommand c u = ([c], 0, 0) := by
  cases c with
  | obj fs =>
    have hty : getKey fs "type" = some (JVal.str "cancel_preview_object") := by
      simpa [cmdTypeIs, getField] using hd
    simp only [stripOneCommand]
    rw [if_neg (by rintro ⟨h, _⟩; rw [hty] at h; exact absurd h (by decide))]
    rw [if_neg (by rintro ⟨h, _⟩; rw [hty] at h; exact absurd h (by decide))]
    rw [if_neg (by rintro ⟨_, h⟩; rw [hw] at h; cases h)]
    rw [if_neg (by
      rintro ⟨h | h, _, _⟩ <;> (rw [hty] at h; exact absurd h (by decide)))]
  | null => simp [cmdTypeIs, getField] at hd
  | jbool b => simp [cmdTypeIs, getField] at hd
  | num q => simp [cmdTypeIs, getField] at hd
  | str s => simp [cmdTypeIs, getField] at hd
  | arr xs => simp [cmdTypeIs, getField] at hd

theorem stripOne_passthrough (u : String) (c : JVal)
    (h1 : cmdTypeIs c "delete_object" = false)
    (h2 : cmdTypeIs c "cancel_preview_object" = false)
    (h3 : cmdTypeIs c "batch" = false)
    (h4 : cmdTypeIs c "update_object" = false)
    (h5 : cmdTypeIs c "update_preview_object" = false) :
    stripOneCommand c u = ([c], 0, 0) := by
  cases c with
  | obj fs =>
    have g1 : ¬ getKey fs "type" = some (JVal.str "delete_object") := by
      simpa [cmdTypeIs, getField] using h1
    have g2 : ¬ getKey fs "type" = some (JVal.str "cancel_preview_object") := by
      simpa [cmdTypeIs, getField] using h2
    have g3 : ¬ getKey fs "type" = some (JVal.str "batch") := by
      simpa [cmdTypeIs, getField] using h3
    have g4 : ¬ getKey fs "type" = some (JVal.str "update_object") := by
      simpa [cmdTypeIs, getField] using h4
    have g5 : ¬ getKey fs "type" = some (JVal.str "update_preview_object") := by
      simpa [cmdTypeIs, getField] using h5
    simp only [stripOneCommand]
    rw [if_neg (by rintro ⟨h, _⟩; exact g3 h)]
    rw [if_neg (by rintro ⟨h, _⟩; exact g1 h)]
    rw [if_neg (by rintro ⟨h, _⟩; exact g2 h)]
    rw [if_neg (by rintro ⟨h | h, _, _⟩; exacts [g4 h, g5 h])]
  | null => rfl
  | jbool b => rfl
  | num q => rfl
  | str s => rfl
  | arr xs => rfl

theorem strip_cons (u : String) (d : JVal) (rest : List JVal) :
    (stripDestructiveCommands (d :: rest) u).1 =
      (stripOneCommand d u).1 ++ (stripDestructiveCommands rest u).1 := rfl

theorem strip_mem_of (u : String) (cmds : List JVal) (c x : JVal) (hc : c ∈ cmds)
    (h1 : x ∈ (stripOneCommand c u).1) :
    x ∈ (stripDestructiveCommands cmds u).1 := by
  induction cmds with
  | nil => cases hc
  | cons d rest ih =>
    rw [strip_cons]
    rcases List.mem_cons.mp hc with rfl | hmem
    · exact List.mem_append_left _ h1
    · exact List.mem_append_right _ (ih hmem)

theorem stripBatchCommands_cons (u : String) (k : String) (v : JVal)
    (rest : List (String × JVal)) :
    stripBatchCommands ((k, v) :: rest) u =
      (if k = "commands" then stripArrCommands v u else stripBatchCommands rest u) := rfl

theorem stripBatchCommands_commands (u : String) :
    ∀ (fs : List (String × JVal)) (v : JVal), getKey fs "commands" = some v →
      stripBatchCommands fs u = stripArrCommands v u := by
  intro fs
  induction fs with
  | nil => intro v hg; simp [getKey] at hg
  | cons p rest ih =>
    intro v hg
    cases p with
    | mk k w =>
      by_cases hk : k = "commands"
      · subst hk
        simp only [getKey, if_true] at hg
        injection hg with hg
        subst hg
        rw [stripBatchCommands_cons, if_pos rfl]
      · simp only [getKey] at hg
        rw [if_neg hk] at hg
        rw [stripBatchCommands_cons, if_neg hk]
        exact ih v hg

theorem stripOne_batch (u : String) (fs : List (String × JVal)) (xs : List JVal)
    (hty : getKey fs "type" = some (.str "batch"))
    (hcm : getKey fs "commands" = some (.arr xs)) :
    stripOneCommand (.obj fs) u =
      ([.obj (setKey fs "commands" (.arr (stripDestructiveCommands xs u).1))],
       (stripDestructiveCommands xs u).2.1, (stripDestructiveCommands xs u).2.2) := by
  have hsb : stripBatchCommands fs u = some (stripDestructiveCommands xs u) := by
    rw [stripBatchCommands_commands u fs (.arr xs) hcm]
    rfl
  simp only [stripOneCommand]
  rw [if_pos (show getKey fs "type" = some (JVal.str "batch") ∧
      (stripBatchCommands fs u).isSome = true from ⟨hty, by rw [hsb]; rfl⟩)]
  rw [hsb]

theorem stripOne_other_kept (u : String) (c : JVal)
    (h1 : cmdTypeIs c "delete_object" = false)
    (h2 : cmdTypeIs c "cancel_preview_object" = false) :
    ∃ x, (stripOneCommand c u).1 = [x] ∧ getField x "type" = getField c "type" := by
  cases c with
  | obj fs =>
    have g1 : ¬ getKey fs "type" = some (JVal.str "delete_object") := by
      simpa [cmdTypeIs, getField] using h1
    have g2 : ¬ getKey fs "type" = some (JVal.str "cancel_preview_object") := by
      simpa [cmdTypeIs, getField] using h2
    simp only [stripOneCommand]
    by_cases hb : getKey fs "type" = some (JVal.str "batch") ∧
        (stripBatchCommands fs u).isSome
    · rw [if_pos hb]
      cases hsb : stripBatchCommands fs u with
      | none => exact ⟨.obj fs, rfl, rfl⟩
      | some inner =>
        refine ⟨.obj (setKey fs "commands" (.arr inner.1)), rfl, ?_⟩
        simp [getField, getKey_setKey_ne fs "commands" _ "type" (by decide)]
    · rw [if_neg hb]
      rw [if_neg (by rintro ⟨h, _⟩; exact g1 h)]
      rw [if_neg (by rintro ⟨h, _⟩; exact g2 h)]
      by_cases h4 : (getKey fs "type" = some (JVal.str "update_object") ∨
            getKey fs "type" = some (JVal.str "update_preview_object")) ∧
          patchHasSemTag fs = true ∧ userExplicitlyWantsConvert u = false
      · rw [if_pos h4]
        cases hp : getKey fs "patch" with
        | none => exact ⟨.obj fs, rfl, rfl⟩
        | some pv =>
          cases pv with
          | obj pfs =>
            refine ⟨.obj (setKey fs "patch" (.obj (removeKey pfs "semanticTag"))), rfl, ?_⟩
            simp [getField, getKey_setKey_ne fs "patch" _ "type" (by decide)]
          | null => exact ⟨.obj fs, rfl, rfl⟩
          | jbool b => exact ⟨.obj fs, rfl, rfl⟩
          | num q => exact ⟨.obj fs, rfl, rfl⟩
          | str s => exact ⟨.obj fs, rfl, rfl⟩
          | arr ys => exact ⟨.obj fs, rfl, rfl⟩
      · rw [if_neg h4]
        exact ⟨.obj fs, rfl, rfl⟩
  | null => exact ⟨.null, rfl, rfl⟩
  | jbool b => exact ⟨.jbool b, rfl, rfl⟩
  | num q => exact ⟨.num q, rfl, rfl⟩
  | str s => exact ⟨.str s, rfl, rfl⟩
  | arr ys => exact ⟨.arr ys, rfl, rfl⟩

theorem strip_not_mem (u : String) (cmds : List JVal) (x : JVal)
    (h : ∀ d ∈ cmds, x ∉ (stripOneCommand d u).1) :
    x ∉ (stripDestructiveCommands cmds u).1 := by
  induction cmds with
  | nil => intro hx; cases hx
  | cons d rest ih =>
    rw [strip_cons]
    intro hx
    rcases List.mem_append.mp hx with hx1 | hx2
    · exact h d (List.mem_cons_self d rest) hx1
    · exact ih (fun e he => h e (List.mem_cons_of_mem d he)) hx2

/-- C4 as amended: the guard strips a delete_object command iff the utterance
lacks the delete vocabulary (delete/remove/erase/clear/get rid/discard/wipe),
strips a cancel_preview_object command iff the utterance lacks the cancel
vocabulary (cancel/discard/undo) — the two lists are separate, not one shared
list. A batch command whose commands field is an array is recursed into: its
wrapper is kept, its inner list is stripped by the same function (to which the
other conjuncts apply in turn, since the command list here is arbitrary), and
the counts are carried out. A command of any other type is never removed: it
produces exactly one output command of the same type, kept in the stripped
list (an unauthorized update's patch may lose its semanticTag on the way, and
a kept batch wrapper carries its stripped inner list). -/
theorem safety_guard_strip_characterization (u : String) (cmds : List JVal) :
    (∀ c ∈ cmds, cmdTypeIs c "delete_object" = true →
      (c ∈ (stripDestructiveCommands cmds u).1 ↔ userExplicitlyWantsDelete u = true)) ∧
    (∀ c ∈ cmds, cmdTypeIs c "cancel_preview_object" = true →
      (c ∈ (stripDestructiveCommands cmds u).1 ↔ userExplicitlyWantsCancel u = true)) ∧
    (∀ (fs : List (String × JVal)) (xs : List JVal),
      getKey fs "type" = some (.str "batch") →
      getKey fs "commands" = some (.arr xs) →
      stripOneCommand (.obj fs) u =
        ([.obj (setKey fs "commands" (.arr (stripDestructiveCommands xs u).1))],
         (stripDestructiveCommands xs u).2.1, (stripDestructiveCommands xs u).2.2)) ∧
    (∀ c ∈ cmds,
      cmdTypeIs c "delete_object" = false →
      cmdTypeIs c "cancel_preview_object" = false →
      ∃ x, (stripOneCommand c u).1 = [x] ∧ getField x "type" = getField c "type" ∧
        x ∈ (stripDestructiveCommands cmds u).1) := by
  refine ⟨?_, ?_, ?_, ?_⟩
  · intro c hc hd
    constructor
    · intro hmem
      by_contra hw'
      have hw : userExplicitlyWantsDelete u = false := by
        cases h : userExplicitlyWantsDelete u
        · rfl
        · exact absurd h hw'
      refine strip_not_mem u cmds c ?_ hmem
      intro d _ hmem2
      have hfalse := stripOne_no_delete_in_output u hw d c hmem2
      rw [hd] at hfalse
      cases hfalse
    · intro hw
      refine strip_mem_of u cmds c c hc ?_
      rw [stripOne_delete_kept u c hd hw]
      exact List.mem_singleton_self c
  · intro c hc hd
    constructor
    · intro hmem
      by_contra hw'
      have hw : userExplicitlyWantsCancel u = false := by
        cases h : userExplicitlyWantsCancel u
        · rfl
        · exact absurd h hw'
      refine strip_not_mem u cmds c ?_ hmem
      intro d _ hmem2
      have hfalse := stripOne_no_cancel_in_output u hw d c hmem2
      rw [hd] at hfalse
      cases hfalse
    · intro hw
      refine strip_mem_of u cmds c c hc ?_
      rw [stripOne_cancel_kept u c hd hw]
      exact List.mem_singleton_self c
  · intro fs xs hty hcm
    exact stripOne_batch u fs xs hty hcm
  · intro c hc h1 h2
    obtain ⟨x,heq, hsame⟩ := stripOne_other_kept u c h1 h2
    refine ⟨x, heq, hsame, strip_mem_of u cmds c x hc ?_⟩
    rw [heq]
    exact List.mem_singleton_self x

def addCmdX : JVal :=
  .obj [("type", .str "add_object"),
        ("object", .obj [("id", .str "tree-2"), ("status", .str "committed")])]

def batchFsX : List (String × JVal) :=
  [("type", .str "batch"), ("commands", .arr [delCmdX])]

/-- Witness for C4 (amended) at concrete inputs: with the utterance
"add a tree" (no delete vocabulary), the delete_object command is kept iff
the delete vocabulary is present, the add_object command yields exactly one
kept output of the same type, and a batch wrapping the delete_object keeps
its wrapper while its inner list is stripped by the same function. -/
theorem safety_guard_strip_witness :
    (delCmdX ∈ (stripDestructiveCommands [delCmdX, addCmdX] "add a tree").1 ↔
      userExplicitlyWantsDelete "add a tree" = true) ∧
    (∃ x, (stripOneCommand addCmdX "add a tree").1 = [x] ∧
      getField x "type" = getField addCmdX "type" ∧
      x ∈ (stripDestructiveCommands [delCmdX, addCmdX] "add a tree").1) ∧
    stripOneCommand (.obj batchFsX) "add a tree" =
      ([.obj (setKey batchFsX "commands"
          (.arr (stripDestructiveCommands [delCmdX] "add a tree").1))],
       (stripDestructiveCommands [delCmdX] "add a tree").2.1,
       (stripDestructiveCommands [delCmdX] "add a tree").2.2) :=
  ⟨(safety_guard_strip_characterization "add a tree" [delCmdX, addCmdX]).1
      delCmdX (by decide) (by decide),
   (safety_guard_strip_characterization "add a tree" [delCmdX, addCmdX]).2.2.2
      addCmdX (by decide) (by decide) (by decide),
   (safety_guard_strip_characterization "add a tree" [delCmdX, addCmdX]).2.2.1
      batchFsX [delCmdX] (by decide) (by decide)⟩

/-! # Geometric stabilizer: band-stack normalization (C6) -/

/-- A shape is a full-width band rect: a rect whose x is at most 1, width at
least 95 and height positive (missing numeric fields default to 0; a falsy or
non-object shape has no type property and fails the rect test). -/
def looksLikeFullWidthBandRect (shape : JVal) : Bool :=
  if getField shape "type" = some (.str "rect") then
    decide (numFieldD shape "x" 0 ≤ 1) && decide (numFieldD shape "width" 0 ≥ 95) &&
      decide (numFieldD shape "height" 0 > 0)
  else false

/-- The sort key `a.y ?? 0` (band rects carry numeric y; a non-numeric value
would poison the JS comparator and is modeled as the 0 default). -/
def bandY (r : JVal) : Rat := numFieldD r "y" 0

/-- Stable insertion of r into an already-sorted list: r goes after the
elements with strictly smaller key and before equal keys arriving later,
matching the stable Array.prototype.sort with comparator (a.y??0)-(b.y??0). -/
def insertByY (r : JVal) : List JVal → List JVal
  | [] => [r]
  | x :: xs => if bandY x < bandY r then x :: insertByY r xs else r :: x :: xs

def sortByY : List JVal → List JVal
  | [] => []
  | x :: xs => insertByY x (sortByY xs)

def getBandRects (shapes : List JVal) : List JVal :=
  sortByY (shapes.filter looksLikeFullWidthBandRect)

def isBandStack (shapes : List JVal) : Bool :=
  (getBandRects shapes).length ≥ 3

/-- One step of the map in normalizeBandStack: spread the source rect and
overwrite x, y, width, height; rem hands one extra unit to each of the first
rem rects, y accumulates the emitted heights. -/
def tileBandRects (base : Int) : List JVal → Rat → Rat → List JVal
  | [], _, _ => []
  | r :: rs, rem, y =>
    let extra : Int := if rem > 0 then 1 else 0
    let h : Rat := ((base + extra : Int) : Rat)
    let rem2 : Rat := if rem > 0 then rem - 1 else rem
    setField (setField (setField (setField r "x" (.num 0)) "y" (.num y))
        "width" (.num 100)) "height" (.num h) ::
      tileBandRects base rs rem2 (y + h)

def normalizeBandStack (shapes : List JVal) (targetHeight : Rat) :
    Option (List JVal) :=
  let rects := getBandRects shapes
  if rects.length < 3 then none
  else
    let n : Nat := rects.length
    let base : Int := Rat.floor (targetHeight / (n : Rat))
    let rem : Rat := targetHeight - (base : Rat) * (n : Rat)
    let outRects := tileBandRects base rects rem 0
    let others := shapes.filter (fun s => !looksLikeFullWidthBandRect s)
    some (outRects ++ others)

def bandHeight (r : JVal) : Rat := numFieldD r "height" 0

def sumHeights (l : List JVal) : Rat := (l.map bandHeight).sum

/-- Each rect's y equals the running sum of the heights before it, starting
from the given y: the tiling has no gaps and no overlaps. -/
def contiguousFrom : Rat → List JVal → Bool
  | _, [] => true
  | y, r :: rs =>
    decide (numFieldD r "y" 0 = y) && contiguousFrom (y + bandHeight r) rs

def isJObject : JVal → Bool
  | .obj _ => true
  | _ => false

theorem getField_setField_self (r : JVal) (k : String) (v : JVal)
    (h : isJObject r = true) : getField (setField r k v) k = some v := by
  cases r <;> simp [isJObject] at h
  simp [setField, getField, getKey_setKey_self]

theorem getField_setField_ne (r : JVal) (k : String) (v : JVal) (k2 : String)
    (h : isJObject r = true) (hne : k ≠ k2) :
    getField (setField r k v) k2 = getField r k2 := by
  cases r <;> simp [isJObject] at h
  simp [setField, getField, getKey_setKey_ne _ _ _ _ hne]

theorem isJObject_setField (r : JVal) (k : String) (v : JVal)
    (h : isJObject r = true) : isJObject (setField r k v) = true := by
  cases r <;> simp [isJObject, setField] at h ⊢

theorem tileHead_fields (r : JVal) (h : isJObject r = true) (y hgt : Rat) :
    getField (setField (setField (setField (setField r "x" (.num 0)) "y" (.num y))
        "width" (.num 100)) "height" (.num hgt)) "height" = some (.num hgt) ∧
    getField (setField (setField (setField (setField r "x" (.num 0)) "y" (.num y))
        "width" (.num 100)) "height" (.num hgt)) "y" = some (.num y) ∧
    getField (setField (setField (setField (setField r "x" (.num 0)) "y" (.num y))
        "width" (.num 100)) "height" (.num hgt)) "x" = some (.num 0) ∧
    getField (setField (setField (setField (setField r "x" (.num 0)) "y" (.num y))
        "width" (.num 100)) "height" (.num hgt)) "width" = some (.num 100) := by
  have o1 := isJObject_setField r "x" (.num 0) h
  have o2 := isJObject_setField _ "y" (.num y) o1
  have o3 := isJObject_setField _ "width" (.num 100) o2
  refine ⟨?_, ?_, ?_, ?_⟩
  · exact getField_setField_self _ _ _ o3
  · rw [getField_setField_ne _ _ _ _ o3 (by decide),
        getField_setField_ne _ _ _ _ o2 (by decide)]
    exact getField_setField_self _ _ _ o1
  · rw [getField_setField_ne _ _ _ _ o3 (by decide),
        getField_setField_ne _ _ _ _ o2 (by decide),
        getField_setField_ne _ _ _ _ o1 (by decide)]
    exact getField_setField_self _ _ _ h
  · rw [getField_setField_ne _ _ _ _ o3 (by decide)]
    exact getField_setField_self _ _ _ o2

theorem mem_insertByY (r : JVal) :
    ∀ (l : List JVal) (x : JVal), x ∈ insertByY r l ↔ x = r ∨ x ∈ l := by
  intro l
  induction l with
  | nil => intro x; simp [insertByY]
  | cons a as ih =>
    intro x
    unfold insertByY
    by_cases hc : bandY a < bandY r
    · rw [if_pos hc]
      simp only [List.mem_cons, ih]
      all_goals tauto
    · rw [if_neg hc]
      simp only [List.mem_cons]

theorem mem_sortByY (l : List JVal) (x : JVal) : x ∈ sortByY l ↔ x ∈ l := by
  induction l with
  | nil => simp [sortByY]
  | cons a as ih =>
    simp only [sortByY, mem_insertByY, List.mem_cons, ih]

theorem isJObject_of_band (r : JVal) (h : looksLikeFullWidthBandRect r = true) :
    isJObject r = true := by
  cases r <;> simp [looksLikeFullWidthBandRect, getField, isJObject] at h ⊢

theorem numFieldD_of_getField {r : JVal} {k : String} {q : Rat} (d : Rat)
    (h : getField r k = some (.num q)) : numFieldD r k d = q := by
  simp [numFieldD, h]

theorem tileBandRects_cons (base : Int) (r : JVal) (rs : List JVal) (rem y : Rat) :
    tileBandRects base (r :: rs) rem y =
      setField (setField (setField (setField r "x" (.num 0)) "y" (.num y))
          "width" (.num 100)) "height"
          (.num ((base + (if rem > 0 then (1 : Int) else 0) : Int) : Rat)) ::
        tileBandRects base rs (if rem > 0 then rem - 1 else rem)
          (y + ((base + (if rem > 0 then (1 : Int) else 0) : Int) : Rat)) := rfl

theorem tileBandRects_props (base : Int) :
    ∀ (rects : List JVal) (m : Nat) (y : Rat),
      (∀ r ∈ rects, isJObject r = true) →
      sumHeights (tileBandRects base rects (m : Rat) y) =
        (base : Rat) * rects.length + ((min m rects.length : Nat) : Rat) ∧
      contiguousFrom y (tileBandRects base rects (m : Rat) y) = true ∧
      (tileBandRects base rects (m : Rat) y).length = rects.length ∧
      ∀ r2 ∈ tileBandRects base rects (m : Rat) y,
        (bandHeight r2).den = 1 ∧ getField r2 "x" = some (.num 0) ∧
          getField r2 "width" = some (.num 100) := by
  intro rects
  induction rects with
  | nil =>
    intro m y h
    simp [tileBandRects, sumHeights, contiguousFrom]
  | cons r rs ih =>
    intro m y hobj
    have hr : isJObject r = true := hobj r (List.mem_cons_self r rs)
    have hrs : ∀ x ∈ rs, isJObject x = true :=
      fun x hx => hobj x (List.mem_cons_of_mem r hx)
    cases m with
    | zero =>
      have hcond : ¬ (((0 : Nat) : Rat) > 0) := by norm_num
      rw [tileBandRects_cons, if_neg hcond, if_neg hcond]
      obtain ⟨hh, hy, hx, hw⟩ := tileHead_fields r hr y ((base + 0 : Int) : Rat)
      obtain ⟨ihs, ihc, ihl, ihf⟩ := ih 0 (y + ((base + 0 : Int) : Rat)) hrs
      have hbh : bandHeight (setField (setField (setField (setField r "x" (.num 0))
          "y" (.num y)) "width" (.num 100)) "height" (.num ((base + 0 : Int) : Rat))) =
          ((base + 0 : Int) : Rat) := numFieldD_of_getField 0 hh
      refine ⟨?_, ?_, ?_, ?_⟩
      · simp only [sumHeights, List.map_cons, List.sum_cons] at ihs ⊢
        rw [hbh, ihs]
        simp only [List.length_cons, Nat.zero_min]
        push_cast
        ring
      · simp only [contiguousFrom, Bool.and_eq_true, decide_eq_true_eq]
        refine ⟨numFieldD_of_getField 0 hy, ?_⟩
        rw [hbh]
        exact ihc
      · simp only [List.length_cons, ihl]
      · intro r2 hr2
        rcases List.mem_cons.mp hr2 with rfl | hmem
        · refine ⟨?_, hx, hw⟩
          rw [hbh]
          exact Rat.den_intCast _
        · exact ihf r2 hmem
    | succ m2 =>
      have hcond : ((m2 + 1 : Nat) : Rat) > 0 := by
        push_cast
        positivity
      rw [tileBandRects_cons, if_pos hcond, if_pos hcond]
      have hrem2 : ((m2 + 1 : Nat) : Rat) - 1 = ((m2 : Nat) : Rat) := by
        push_cast
        ring
      rw [hrem2]
      obtain ⟨hh, hy, hx, hw⟩ := tileHead_fields r hr y ((base + 1 : Int) : Rat)
      obtain ⟨ihs, ihc, ihl, ihf⟩ := ih m2 (y + ((base + 1 : Int) : Rat)) hrs
      have hbh : bandHeight (setField (setField (setField (setField r "x" (.num 0))
          "y" (.num y)) "width" (.num 100)) "height" (.num ((base + 1 : Int) : Rat))) =
          ((base + 1 : Int) : Rat) := numFieldD_of_getField 0 hh
      refine ⟨?_, ?_, ?_, ?_⟩
      · simp only [sumHeights, List.map_cons, List.sum_cons] at ihs ⊢
        rw [hbh, ihs]
        simp only [List.length_cons, Nat.succ_min_succ]
        push_cast
        ring
      · simp only [contiguousFrom, Bool.and_eq_true, decide_eq_true_eq]
        refine ⟨numFieldD_of_getField 0 hy, ?_⟩
        rw [hbh]
        exact ihc
      · simp only [List.length_cons, ihl]
      · intro r2 hr2
        rcases List.mem_cons.mp hr2 with rfl | hmem
        · refine ⟨?_, hx, hw⟩
          rw [hbh]
          exact Rat.den_intCast _
        · exact ihf r2 hmem

/-- C6: on a shape list with at least 3 full-width band rects, normalizing
against a positive integer target height yields the band rects re-tiled with
integer heights summing exactly to the target, y values contiguous from 0
(no gaps, no overlap), x 0 and width 100, with the remaining shapes carried
along. -/
theorem normalizeBandStack_tiles_target (shapes : List JVal) (T : Nat)
    (h3 : 3 ≤ (getBandRects shapes).length) (hT : 0 < T) :
    ∃ bands rest,
      normalizeBandStack shapes (T : Rat) = some (bands ++ rest) ∧
      bands.length = (getBandRects shapes).length ∧
      sumHeights bands = (T : Rat) ∧
      contiguousFrom 0 bands = true ∧
      ∀ r ∈ bands, (bandHeight r).den = 1 ∧ getField r "x" = some (.num 0) ∧
        getField r "width" = some (.num 100) := by
  have hobj : ∀ r ∈ getBandRects shapes, isJObject r = true := by
    intro r hr
    have hmem : r ∈ shapes.filter looksLikeFullWidthBandRect := (mem_sortByY _ r).mp hr
    exact isJObject_of_band r (List.of_mem_filter hmem)
  have hnpos : 0 < (getBandRects shapes).length := by omega
  have hdm2 : (T / (getBandRects shapes).length) * (getBandRects shapes).length +
      T % (getBandRects shapes).length = T := by
    have h := Nat.div_add_mod T (getBandRects shapes).length
    rw [Nat.mul_comm] at h
    exact h
  have hfloor : Rat.floor ((T : Rat) / ((getBandRects shapes).length : Rat)) =
      ((T / (getBandRects shapes).length : Nat) : Int) := by
    have hff : Rat.floor ((T : Rat) / ((getBandRects shapes).length : Rat)) =
        ⌊((T : Rat) / ((getBandRects shapes).length : Rat))⌋ := rfl
    rw [hff, Rat.floor_natCast_div_natCast]
    exact (Int.ofNat_div T _).symm
  have hint : (((T / (getBandRects shapes).length : Nat) : Int) : Rat) =
      ((T / (getBandRects shapes).length : Nat) : Rat) := Int.cast_natCast _
  have hcast : ((T / (getBandRects shapes).length : Nat) : Rat) *
        ((getBandRects shapes).length : Rat) +
      ((T % (getBandRects shapes).length : Nat) : Rat) = (T : Rat) := by
    exact_mod_cast congrArg (fun k : Nat => (k : Rat)) hdm2
  have hrem : (T : Rat) - (((T / (getBandRects shapes).length : Nat) : Int) : Rat) *
      ((getBandRects shapes).length : Rat) =
      ((T % (getBandRects shapes).length : Nat) : Rat) := by
    rw [hint]
    linarith
  obtain ⟨hs, hc, hl, hf⟩ :=
    tileBandRects_props ((T / (getBandRects shapes).length : Nat) : Int)
      (getBandRects shapes) (T % (getBandRects shapes).length) 0 hobj
  refine ⟨tileBandRects ((T / (getBandRects shapes).length : Nat) : Int)
      (getBandRects shapes) ((T % (getBandRects shapes).length : Nat) : Rat) 0,
      shapes.filter (fun s => !looksLikeFullWidthBandRect s), ?_, hl, ?_, hc, hf⟩
  · simp only [normalizeBandStack]
    rw [if_neg (by omega), hfloor, hrem]
  · rw [hs, Nat.min_eq_left (le_of_lt (Nat.mod_lt _ hnpos)), hint]
    exact hcast

def bandShapesX : List JVal :=
  [.obj [("id", .str "band-a"), ("type", .str "rect"), ("x", .num 0),
         ("y", .num 0), ("width", .num 100), ("height", .num 40),
         ("fill", .str "#9ad0ff")],
   .obj [("id", .str "band-b"), ("type", .str "rect"), ("x", .num 0),
         ("y", .num 40), ("width", .num 100), ("height", .num 35),
         ("fill", .str "#bfe0ff")],
   .obj [("id", .str "band-c"), ("type", .str "rect"), ("x", .num 0),
         ("y", .num 75), ("width", .num 100), ("height", .num 22),
         ("fill", .str "#e4f1ff")]]

/-- Witness for C6: a concrete 3-rect band stack normalized against target
height 100 tiles exactly. -/
theorem normalizeBandStack_tiles_target_witness :
    ∃ bands rest,
      normalizeBandStack bandShapesX ((100 : Nat) : Rat) = some (bands ++ rest) ∧
      bands.length = (getBandRects bandShapesX).length ∧
      sumHeights bands = ((100 : Nat) : Rat) ∧
      contiguousFrom 0 bands = true ∧
      ∀ r ∈ bands, (bandHeight r).den = 1 ∧ getField r "x" = some (.num 0) ∧
        getField r "width" = some (.num 100) :=
  normalizeBandStack_tiles_target bandShapesX 100 (by decide) (by decide)

/-! # Validator (zod schemas of src/shared: vectorShapes.ts, scene.ts,
commands.ts, ws.ts)

zod's z.object accepts only plain objects (not arrays or null), validates the
declared keys (optional keys validate only when present; JSON has no
undefined, so a present null fails a non-nullable field) and ignores unknown
keys unless the schema is strict. -/

def isStr : JVal → Bool
  | .str _ => true
  | _ => false

def isNum : JVal → Bool
  | .num _ => true
  | _ => false

def isBool : JVal → Bool
  | .jbool _ => true
  | _ => false

def isNumBetween (v : JVal) (lo hi : Rat) : Bool :=
  match v with
  | .num q => decide (lo ≤ q) && decide (q ≤ hi)
  | _ => false

def isNonnegNum (v : JVal) : Bool :=
  match v with
  | .num q => decide (0 ≤ q)
  | _ => false

/-- An optional field: valid when absent, checked when present. -/
def optKey (fs : List (String × JVal)) (k : String) (p : JVal → Bool) : Bool :=
  match getKey fs k with
  | none => true
  | some v => p v

/-- A required field. -/
def reqKey (fs : List (String × JVal)) (k : String) (p : JVal → Bool) : Bool :=
  match getKey fs k with
  | none => false
  | some v => p v

/-- The even-indexed entries of gradient color stops are numbers in 0..1. -/
def stopsEveryOther : List JVal → Bool
  | [] => true
  | [x] => isNumBetween x 0 1
  | x :: _ :: rest => isNumBetween x 0 1 && stopsEveryOther rest

def validateGradientColorStops (v : JVal) : Bool :=
  match v with
  | .arr xs =>
    xs.all (fun x => isNum x || isStr x) && decide (xs.length % 2 = 0) &&
      stopsEveryOther xs
  | _ => false

def validateGradientPoint (v : JVal) : Bool :=
  match v with
  | .obj fs => reqKey fs "x" isNum && reqKey fs "y" isNum
  | _ => false

def validateShapeBase (fs : List (String × JVal)) : Bool :=
  reqKey fs "id" isStr &&
  optKey fs "role" isStr &&
  optKey fs "opacity" (fun v => isNumBetween v 0 1) &&
  optKey fs "fill" isStr &&
  optKey fs "stroke" isStr &&
  optKey fs "strokeWidth" (fun v => isNumBetween v 0 20) &&
  optKey fs "fillLinearGradientStartPoint" validateGradientPoint &&
  optKey fs "fillLinearGradientEndPoint" validateGradientPoint &&
  optKey fs "fillLinearGradientColorStops" validateGradientColorStops &&
  optKey fs "fillRadialGradientStartPoint" validateGradientPoint &&
  optKey fs "fillRadialGradientEndPoint" validateGradientPoint &&
  optKey fs "fillRadialGradientStartRadius" isNonnegNum &&
  optKey fs "fillRadialGradientEndRadius" isNonnegNum &&
  optKey fs "fillRadialGradientColorStops" validateGradientColorStops

/-- PointsSchema: an array of at most 200 numbers. -/
def validatePoints (v : JVal) : Bool :=
  match v with
  | .arr xs => decide (xs.length ≤ 200) && xs.all isNum
  | _ => false

/-- The even-length refine of LineSchema's points. -/
def isEvenPoints (v : JVal) : Bool :=
  match v with
  | .arr xs => decide (xs.length % 2 = 0)
  | _ => false

def isShortStr (v : JVal) (maxLen : Nat) : Bool :=
  match v with
  | .str s => decide (s.length ≤ maxLen)
  | _ => false

/-- VectorShapeSchema: discriminated union on the type field (the eight
literals are distinct, so matching them in turn dispatches exactly). -/
def validateShape (j : JVal) : Bool :=
  match j with
  | .obj fs =>
    if getKey fs "type" = some (.str "rect") then
      validateShapeBase fs && reqKey fs "x" isNum && reqKey fs "y" isNum &&
        reqKey fs "width" isNonnegNum && reqKey fs "height" isNonnegNum &&
        optKey fs "cornerRadius" isNonnegNum
    else if getKey fs "type" = some (.str "circle") then
      validateShapeBase fs && reqKey fs "x" isNum && reqKey fs "y" isNum &&
        reqKey fs "radius" isNonnegNum
    else if getKey fs "type" = some (.str "ellipse") then
      validateShapeBase fs && reqKey fs "x" isNum && reqKey fs "y" isNum &&
        reqKey fs "radiusX" isNonnegNum && reqKey fs "radiusY" isNonnegNum
    else if getKey fs "type" = some (.str "line") then
      validateShapeBase fs &&
        reqKey fs "points" (fun v => validatePoints v && isEvenPoints v)
    else if getKey fs "type" = some (.str "polyline") then
      validateShapeBase fs && reqKey fs "points" validatePoints &&
        optKey fs "closed" isBool
    else if getKey fs "type" = some (.str "polygon") then
      validateShapeBase fs && reqKey fs "points" validatePoints
    else if getKey fs "type" = some (.str "path") then
      validateShapeBase fs && reqKey fs "d" (fun v => isShortStr v 800)
    else if getKey fs "type" = some (.str "text") then
      validateShapeBase fs && reqKey fs "x" isNum && reqKey fs "y" isNum &&
        reqKey fs "text" (fun v => isShortStr v 80) &&
        optKey fs "fontSize" (fun v => isNumBetween v 6 96) &&
        optKey fs "fontFamily" isStr &&
        optKey fs "align" (fun v =>
          v = .str "left" ∨ v = .str "center" ∨ v = .str "right")
    else false
  | _ => false

def validateTransform (v : JVal) : Bool :=
  match v with
  | .obj fs =>
    reqKey fs "x" (fun w => isNumBetween w 0 100) &&
    reqKey fs "y" (fun w => isNumBetween w 0 100) &&
    reqKey fs "scale" (fun w => isNumBetween w (1 / 10) 3) &&
    reqKey fs "rotation" (fun w => isNumBetween w (-180) 180)
  | _ => false

def validatePoint (v : JVal) : Bool :=
  match v with
  | .obj fs =>
    reqKey fs "x" (fun w => isNumBetween w 0 100) &&
    reqKey fs "y" (fun w => isNumBetween w 0 100)
  | _ => false

def validateSceneIntent (v : JVal) : Bool :=
  match v with
  | .obj fs =>
    reqKey fs "description" isStr &&
    optKey fs "mood" (fun w =>
      w = .str "calm" ∨ w = .str "bright" ∨ w = .str "dramatic" ∨ w = .str "sunset") &&
    optKey fs "paletteHint" isStr
  | _ => false

def validateSemanticTag (v : JVal) : Bool :=
  match v with
  | .str s => decide (1 ≤ s.length) && decide (s.length ≤ 32)
  | _ => false

def validateSceneObject (v : JVal) : Bool :=
  match v with
  | .obj fs =>
    reqKey fs "id" isStr &&
    reqKey fs "status" (fun w => w = .str "preview" ∨ w = .str "committed") &&
    reqKey fs "layer" (fun w =>
      w = .str "sky" ∨ w = .str "ground" ∨ w = .str "background" ∨ w = .str "foreground") &&
    reqKey fs "transform" validateTransform &&
    optKey fs "semanticTag" validateSemanticTag &&
    reqKey fs "shapes" (fun w =>
      match w with
      | .arr xs => decide (1 ≤ xs.length) && decide (xs.length ≤ 60) && xs.all validateShape
      | _ => false)
  | _ => false

/-- The refine on add commands: the object's status must equal the given
literal. -/
def statusIs (v : JVal) (s : String) : Bool :=
  match v with
  | .obj fs => decide (getKey fs "status" = some (.str s))
  | _ => false

def PATCH_KEYS : List String := ["layer", "status", "transform", "semanticTag", "shapes"]

/-- PatchSchema: a strict object over five z.any() optional fields (unknown
keys rejected), refined to exclude id and type. -/
def validatePatch (v : JVal) : Bool :=
  match v with
  | .obj fs =>
    fs.all (fun p => PATCH_KEYS.contains p.1) &&
      !(hasKey fs "id" || hasKey fs "type")
  | _ => false

def validateGradient (v : JVal) : Bool :=
  match v with
  | .obj fs =>
    reqKey fs "kind" (fun w => w = .str "linear") &&
    reqKey fs "from" validatePoint &&
    reqKey fs "to" validatePoint &&
    reqKey fs "stops" (fun w =>
      match w with
      | .arr xs =>
        xs.all (fun st =>
          match st with
          | .obj sfs =>
            reqKey sfs "offset" (fun o => isNumBetween o 0 1) &&
              reqKey sfs "color" isStr
          | _ => false)
      | _ => false)
  | _ => false

mutual

/-- Intent payload: SceneIntentSchema.nullable(). -/
def validateIntentValue (v : JVal) : Bool :=
  match v with
  | .null => true
  | _ => validateSceneIntent v

def validateBezierPoints (v : JVal) : Bool :=
  match v with
  | .arr xs => xs.all validatePoint
  | _ => false

/-- DrawingCommandSchema: discriminated union on the type field (the twelve
literals are distinct, so matching them in turn dispatches exactly); batch
recurses through its commands array. -/
def validateCommand (j : JVal) : Bool :=
  match j with
  | .obj fs =>
    if getKey fs "type" = some (.str "set_scene_intent") then
      reqKey fs "intent" validateIntentValue
    else if getKey fs "type" = some (.str "add_preview_object") then
      reqKey fs "object" (fun v => validateSceneObject v && statusIs v "preview")
    else if getKey fs "type" = some (.str "update_preview_object") then
      reqKey fs "id" isStr && reqKey fs "patch" validatePatch
    else if getKey fs "type" = some (.str "commit_preview_object") then
      reqKey fs "id" isStr
    else if getKey fs "type" = some (.str "cancel_preview_object") then
      reqKey fs "id" isStr
    else if getKey fs "type" = some (.str "add_object") then
      reqKey fs "object" (fun v => validateSceneObject v && statusIs v "committed")
    else if getKey fs "type" = some (.str "update_object") then
      reqKey fs "id" isStr && reqKey fs "patch" validatePatch
    else if getKey fs "type" = some (.str "delete_object") then
      reqKey fs "id" isStr
    else if getKey fs "type" = some (.str "set_background_gradient") then
      reqKey fs "gradient" validateGradient
    else if getKey fs "type" = some (.str "set_ground_fill") then
      reqKey fs "fill" isStr
    else if getKey fs "type" = some (.str "set_path") then
      reqKey fs "id" isStr && reqKey fs "bezierPoints" validateBezierPoints &&
        reqKey fs "widthNear" (fun v => isNumBetween v 0 50) &&
        reqKey fs "widthFar" (fun v => isNumBetween v 0 50)
    else if getKey fs "type" = some (.str "batch") then
      validateBatchField fs
    else false
  | _ => false

/-- Scan for the batch's commands field (required; an absent field fails). -/
def validateBatchField : List (String × JVal) → Bool
  | [] => false
  | (k, v) :: rest =>
    if k = "commands" then validateCmdArr v else validateBatchField rest

def validateCmdArr : JVal → Bool
  | .arr xs => validateCommandList xs
  | _ => false

def validateCommandList : List JVal → Bool
  | [] => true
  | c :: cs => validateCommand c && validateCommandList cs

end

/-- CommandEnvelopeSchema. -/
def validateEnvelope (j : JVal) : Bool :=
  match j with
  | .obj fs =>
    (match getKey fs "commands" with
     | some (.arr xs) => validateCommandList xs
     | _ => false) &&
    optKey fs "notes" isStr &&
    optKey fs "refused" isBool &&
    optKey fs "refusalReason" isStr
  | _ => false

/-! # Patch rejection (C9) -/

mutual

/-- The command (or, recursively, some command inside a batch) is an update
whose patch object carries an id or type key. -/
def cmdHasBadPatch (j : JVal) : Bool :=
  match j with
  | .obj fs =>
    if getKey fs "type" = some (.str "update_object") ∨
        getKey fs "type" = some (.str "update_preview_object") then
      match getKey fs "patch" with
      | some (.obj pfs) => hasKey pfs "id" || hasKey pfs "type"
      | _ => false
    else if getKey fs "type" = some (.str "batch") then badBatchField fs
    else false
  | _ => false

def badBatchField : List (String × JVal) → Bool
  | [] => false
  | (k, v) :: rest =>
    if k = "commands" then badCmdArr v else badBatchField rest

def badCmdArr : JVal → Bool
  | .arr xs => badCmdList xs
  | _ => false

def badCmdList : List JVal → Bool
  | [] => false
  | c :: cs => cmdHasBadPatch c || badCmdList cs

end

mutual

/-- Every update command (recursively through batch) carries a patch that is
an object whose keys all lie in layer/status/transform/semanticTag/shapes. -/
def cmdPatchKeysAllowed (j : JVal) : Bool :=
  match j with
  | .obj fs =>
    if getKey fs "type" = some (.str "update_object") ∨
        getKey fs "type" = some (.str "update_preview_object") then
      match getKey fs "patch" with
      | some (.obj pfs) => pfs.all (fun p => PATCH_KEYS.contains p.1)
      | _ => false
    else if getKey fs "type" = some (.str "batch") then goodBatchField fs
    else true
  | _ => true

def goodBatchField : List (String × JVal) → Bool
  | [] => true
  | (k, v) :: rest =>
    if k = "commands" then goodCmdArr v else goodBatchField rest

def goodCmdArr : JVal → Bool
  | .arr xs => goodCmdList xs
  | _ => true

def goodCmdList : List JVal → Bool
  | [] => true
  | c :: cs => cmdPatchKeysAllowed c && goodCmdList cs

end

/-- Some command of the envelope (recursively) is an update with an id or
type key in its patch. -/
def envelopeHasBadPatch (j : JVal) : Bool :=
  match j with
  | .obj fs =>
    match getKey fs "commands" with
    | some (.arr xs) => badCmdList xs
    | _ => false
  | _ => false

/-- Every update command of the envelope (recursively) has a patch touching
only the allowed keys. -/
def envelopePatchKeysAllowed (j : JVal) : Bool :=
  match j with
  | .obj fs =>
    match getKey fs "commands" with
    | some (.arr xs) => goodCmdList xs
    | _ => true
  | _ => true

theorem sizeOf_getKey {fs : List (String × JVal)} {k : String} {v : JVal}
    (h : getKey fs k = some v) : sizeOf v < sizeOf fs := by
  induction fs with
  | nil => simp [getKey] at h
  | cons p rest ih =>
    cases p with
    | mk k1 v1 =>
      simp only [getKey] at h
      by_cases hk : k1 = k
      · rw [if_pos hk] at h
        injection h with h
        subst h
        simp only [List.cons.sizeOf_spec, Prod.mk.sizeOf_spec]
        omega
      · rw [if_neg hk] at h
        have := ih h
        simp only [List.cons.sizeOf_spec]
        omega


theorem validateCommand_obj (fs : List (String × JVal)) :
    validateCommand (.obj fs) =
      (if getKey fs "type" = some (.str "set_scene_intent") then
        reqKey fs "intent" validateIntentValue
      else if getKey fs "type" = some (.str "add_preview_object") then
        reqKey fs "object" (fun v => validateSceneObject v && statusIs v "preview")
      else if getKey fs "type" = some (.str "update_preview_object") then
        reqKey fs "id" isStr && reqKey fs "patch" validatePatch
      else if getKey fs "type" = some (.str "commit_preview_object") then
        reqKey fs "id" isStr
      else if getKey fs "type" = some (.str "cancel_preview_object") then
        reqKey fs "id" isStr
      else if getKey fs "type" = some (.str "add_object") then
        reqKey fs "object" (fun v => validateSceneObject v && statusIs v "committed")
      else if getKey fs "type" = some (.str "update_object") then
        reqKey fs "id" isStr && reqKey fs "patch" validatePatch
      else if getKey fs "type" = some (.str "delete_object") then
        reqKey fs "id" isStr
      else if getKey fs "type" = some (.str "set_background_gradient") then
        reqKey fs "gradient" validateGradient
      else if getKey fs "type" = some (.str "set_ground_fill") then
        reqKey fs "fill" isStr
      else if getKey fs "type" = some (.str "set_path") then
        reqKey fs "id" isStr && reqKey fs "bezierPoints" validateBezierPoints &&
          reqKey fs "widthNear" (fun v => isNumBetween v 0 50) &&
          reqKey fs "widthFar" (fun v => isNumBetween v 0 50)
      else if getKey fs "type" = some (.str "batch") then
        validateBatchField fs
      else false) := rfl

theorem validateCommand_update (fs : List (String × JVal))
    (h : getKey fs "type" = some (.str "update_object") ∨
      getKey fs "type" = some (.str "update_preview_object")) :
    validateCommand (.obj fs) = (reqKey fs "id" isStr && reqKey fs "patch" validatePatch) := by
  rcases h with h | h
  · rw [validateCommand_obj]
    rw [if_neg (by rw [h]; decide), if_neg (by rw [h]; decide),
      if_neg (by rw [h]; decide), if_neg (by rw [h]; decide),
      if_neg (by rw [h]; decide), if_neg (by rw [h]; decide), if_pos h]
  · rw [validateCommand_obj]
    rw [if_neg (by rw [h]; decide), if_neg (by rw [h]; decide), if_pos h]

theorem validateCommand_batch (fs : List (String × JVal))
    (h : getKey fs "type" = some (.str "batch")) :
    validateCommand (.obj fs) = validateBatchField fs := by
  rw [validateCommand_obj]
  rw [if_neg (by rw [h]; decide), if_neg (by rw [h]; decide),
    if_neg (by rw [h]; decide), if_neg (by rw [h]; decide),
    if_neg (by rw [h]; decide), if_neg (by rw [h]; decide),
    if_neg (by rw [h]; decide), if_neg (by rw [h]; decide),
    if_neg (by rw [h]; decide), if_neg (by rw [h]; decide),
    if_neg (by rw [h]; decide), if_pos h]

theorem cmdHasBadPatch_obj (fs : List (String × JVal)) :
    cmdHasBadPatch (.obj fs) =
      (if getKey fs "type" = some (.str "update_object") ∨
          getKey fs "type" = some (.str "update_preview_object") then
        match getKey fs "patch" with
        | some (.obj pfs) => hasKey pfs "id" || hasKey pfs "type"
        | _ => false
      else if getKey fs "type" = some (.str "batch") then badBatchField fs
      else false) := rfl

theorem cmdPatchKeysAllowed_obj (fs : List (String × JVal)) :
    cmdPatchKeysAllowed (.obj fs) =
      (if getKey fs "type" = some (.str "update_object") ∨
          getKey fs "type" = some (.str "update_preview_object") then
        match getKey fs "patch" with
        | some (.obj pfs) => pfs.all (fun p => PATCH_KEYS.contains p.1)
        | _ => false
      else if getKey fs "type" = some (.str "batch") then goodBatchField fs
      else true) := rfl

theorem validateBatchField_cons (k : String) (v : JVal) (rest : List (String × JVal)) :
    validateBatchField ((k, v) :: rest) =
      (if k = "commands" then validateCmdArr v else validateBatchField rest) := rfl

theorem badBatchField_cons (k : String) (v : JVal) (rest : List (String × JVal)) :
    badBatchField ((k, v) :: rest) =
      (if k = "commands" then badCmdArr v else badBatchField rest) := rfl

theorem goodBatchField_cons (k : String) (v : JVal) (rest : List (String × JVal)) :
    goodBatchField ((k, v) :: rest) =
      (if k = "commands" then goodCmdArr v else goodBatchField rest) := rfl

theorem valid_cmd_patch_ok :
    ∀ (n : Nat) (j : JVal), sizeOf j ≤ n → validateCommand j = true →
      cmdHasBadPatch j = false ∧ cmdPatchKeysAllowed j = true := by
  intro n
  induction n with
  | zero =>
    intro j h
    exfalso
    cases j <;> simp at h
  | succ n ih =>
    intro j hsz hv
    cases j with
    | obj fs =>
      by_cases hupd : getKey fs "type" = some (.str "update_object") ∨
          getKey fs "type" = some (.str "update_preview_object")
      · have hpatch : reqKey fs "patch" validatePatch = true := by
          rw [validateCommand_update fs hupd, Bool.and_eq_true] at hv
          exact hv.2
        simp only [reqKey] at hpatch
        cases hp : getKey fs "patch" with
        | none => rw [hp] at hpatch; cases hpatch
        | some pv =>
          rw [hp] at hpatch
          cases pv with
          | obj pfs =>
            simp only [validatePatch, Bool.and_eq_true] at hpatch
            constructor
            · rw [cmdHasBadPatch_obj, if_pos hupd, hp]
              have := hpatch.2
              simp only [Bool.not_eq_eq_eq_not, Bool.not_true] at this
              simpa using this
            · rw [cmdPatchKeysAllowed_obj, if_pos hupd, hp]
              exact hpatch.1
          | null => simp [validatePatch] at hpatch
          | jbool b => simp [validatePatch] at hpatch
          | num q => simp [validatePatch] at hpatch
          | str s => simp [validatePatch] at hpatch
          | arr xs => simp [validatePatch] at hpatch
      · by_cases hbatch : getKey fs "type" = some (.str "batch")
        · have hvb : validateBatchField fs = true := by
            rwa [validateCommand_batch fs hbatch] at hv
          have hfs : sizeOf fs ≤ n := by
            simp only [JVal.obj.sizeOf_spec] at hsz
            omega
          have hmain : ∀ (gs : List (String × JVal)), sizeOf gs ≤ n →
              validateBatchField gs = true →
              badBatchField gs = false ∧ goodBatchField gs = true := by
            intro gs
            induction gs with
            | nil => intro _ h; simp [validateBatchField] at h
            | cons p rest ihg =>
              intro hgs hvg
              cases p with
              | mk k v =>
                by_cases hk : k = "commands"
                · subst hk
                  rw [validateBatchField_cons, if_pos rfl] at hvg
                  rw [badBatchField_cons, goodBatchField_cons, if_pos rfl, if_pos rfl]
                  cases v with
                  | arr xs =>
                    have hva : validateCmdArr (JVal.arr xs) = validateCommandList xs := rfl
                    rw [hva] at hvg
                    have hba : badCmdArr (JVal.arr xs) = badCmdList xs := rfl
                    have hga : goodCmdArr (JVal.arr xs) = goodCmdList xs := rfl
                    rw [hba, hga]
                    have hxs : sizeOf xs ≤ n := by
                      simp only [List.cons.sizeOf_spec, Prod.mk.sizeOf_spec,
                        JVal.arr.sizeOf_spec] at hgs
                      omega
                    have hlist : ∀ (ys : List JVal), sizeOf ys ≤ n →
                        validateCommandList ys = true →
                        badCmdList ys = false ∧ goodCmdList ys = true := by
                      intro ys
                      induction ys with
                      | nil => intro _ _; exact ⟨rfl, rfl⟩
                      | cons c cs ihy =>
                        intro hys hvy
                        have hvc : validateCommandList (c :: cs) =
                            (validateCommand c && validateCommandList cs) := rfl
                        rw [hvc, Bool.and_eq_true] at hvy
                        have hc : sizeOf c ≤ n := by
                          simp only [List.cons.sizeOf_spec] at hys
                          omega
                        have hcs : sizeOf cs ≤ n := by
                          simp only [List.cons.sizeOf_spec] at hys
                          omega
                        obtain ⟨hb1, hg1⟩ := ih c hc hvy.1
                        obtain ⟨hb2, hg2⟩ := ihy hcs hvy.2
                        have e1 : badCmdList (c :: cs) = (cmdHasBadPatch c || badCmdList cs) := rfl
                        have e2 : goodCmdList (c :: cs) =
                            (cmdPatchKeysAllowed c && goodCmdList cs) := rfl
                        rw [e1, e2, hb1, hb2, hg1, hg2]
                        exact ⟨rfl, rfl⟩
                    exact hlist xs hxs hvg
                  | null => rw [show validateCmdArr JVal.null = false from rfl] at hvg; cases hvg
                  | jbool b =>
                    rw [show validateCmdArr (JVal.jbool b) = false from rfl] at hvg
                    cases hvg
                  | num q =>
                    rw [show validateCmdArr (JVal.num q) = false from rfl] at hvg
                    cases hvg
                  | str s =>
                    rw [show validateCmdArr (JVal.str s) = false from rfl] at hvg
                    cases hvg
                  | obj gfs =>
                    rw [show validateCmdArr (JVal.obj gfs) = false from rfl] at hvg
                    cases hvg
                · rw [validateBatchField_cons, if_neg hk] at hvg
                  rw [badBatchField_cons, goodBatchField_cons, if_neg hk, if_neg hk]
                  have hrest : sizeOf rest ≤ n := by
                    simp only [List.cons.sizeOf_spec] at hgs
                    omega
                  exact ihg hrest hvg
          have hres := hmain fs hfs hvb
          constructor
          · rw [cmdHasBadPatch_obj, if_neg hupd, if_pos hbatch]
            exact hres.1
          · rw [cmdPatchKeysAllowed_obj, if_neg hupd, if_pos hbatch]
            exact hres.2
        · constructor
          · rw [cmdHasBadPatch_obj, if_neg hupd, if_neg hbatch]
          · rw [cmdPatchKeysAllowed_obj, if_neg hupd, if_neg hbatch]
    | null => rw [show validateCommand JVal.null = false from rfl] at hv; cases hv
    | jbool b =>
      rw [show validateCommand (JVal.jbool b) = false from rfl] at hv
      cases hv
    | num q =>
      rw [show validateCommand (JVal.num q) = false from rfl] at hv
      cases hv
    | str s =>
      rw [show validateCommand (JVal.str s) = false from rfl] at hv
      cases hv
    | arr xs =>
      rw [show validateCommand (JVal.arr xs) = false from rfl] at hv
      cases hv

theorem valid_cmdlist_patch_ok (ys : List JVal) (h : validateCommandList ys = true) :
    badCmdList ys = false ∧ goodCmdList ys = true := by
  induction ys with
  | nil => exact ⟨rfl, rfl⟩
  | cons c cs ihy =>
    have hvc : validateCommandList (c :: cs) =
        (validateCommand c && validateCommandList cs) := rfl
    rw [hvc, Bool.and_eq_true] at h
    obtain ⟨hb1, hg1⟩ := valid_cmd_patch_ok (sizeOf c) c (Nat.le_refl _) h.1
    obtain ⟨hb2, hg2⟩ := ihy h.2
    have e1 : badCmdList (c :: cs) = (cmdHasBadPatch c || badCmdList cs) := rfl
    have e2 : goodCmdList (c :: cs) = (cmdPatchKeysAllowed c && goodCmdList cs) := rfl
    rw [e1, e2, hb1, hb2, hg1, hg2]
    exact ⟨rfl, rfl⟩

/-- C9: a CommandEnvelope containing (possibly inside batches) an update
command whose patch carries an id or type key fails validation, and every
validated envelope's update patches touch only layer, status, transform,
semanticTag and shapes. -/
theorem patch_id_type_rejected (j : JVal) :
    (envelopeHasBadPatch j = true → validateEnvelope j = false) ∧
    (validateEnvelope j = true → envelopePatchKeysAllowed j = true) := by
  have key : validateEnvelope j = true →
      envelopeHasBadPatch j = false ∧ envelopePatchKeysAllowed j = true := by
    intro hv
    cases j with
    | obj fs =>
      have he : validateEnvelope (.obj fs) =
          ((match getKey fs "commands" with
            | some (.arr xs) => validateCommandList xs
            | _ => false) &&
           (optKey fs "notes" isStr && (optKey fs "refused" isBool &&
             optKey fs "refusalReason" isStr))) := by
        rw [show validateEnvelope (JVal.obj fs) =
            ((match getKey fs "commands" with
              | some (.arr xs) => validateCommandList xs
              | _ => false) &&
             optKey fs "notes" isStr &&
             optKey fs "refused" isBool &&
             optKey fs "refusalReason" isStr) from rfl]
        simp [Bool.and_assoc]
      rw [he, Bool.and_eq_true] at hv
      have hcmds := hv.1
      cases hc : getKey fs "commands" with
      | none => rw [hc] at hcmds; cases hcmds
      | some cv =>
        rw [hc] at hcmds
        cases cv with
        | arr xs =>
          obtain ⟨hbad, hgood⟩ := valid_cmdlist_patch_ok xs hcmds
          constructor
          · simp only [envelopeHasBadPatch, hc]
            exact hbad
          · simp only [envelopePatchKeysAllowed, hc]
            exact hgood
        | null => cases hcmds
        | jbool b => cases hcmds
        | num q => cases hcmds
        | str s => cases hcmds
        | obj gfs => cases hcmds
    | null => cases hv
    | jbool b => cases hv
    | num q => cases hv
    | str s => cases hv
    | arr xs => cases hv
  constructor
  · intro hbad
    cases hval : validateEnvelope j with
    | false => rfl
    | true =>
      have := (key hval).1
      rw [hbad] at this
      cases this
  · intro hv
    exact (key hv).2

def badEnvX : JVal :=
  .obj [("commands", .arr [.obj [("type", .str "update_object"),
    ("id", .str "a"), ("patch", .obj [("id", .str "b")])]])]

def goodEnvX : JVal :=
  .obj [("commands", .arr [.obj [("type", .str "update_object"),
    ("id", .str "a"), ("patch", .obj [("layer", .str "sky")])]])]

/-- Witness for C9 at concrete envelopes: an update patch with an id key
fails validation; a validated update patch touches only allowed keys. -/
theorem patch_id_type_rejected_witness :
    validateEnvelope badEnvX = false ∧ envelopePatchKeysAllowed goodEnvX = true :=
  ⟨(patch_id_type_rejected badEnvX).1 (by decide),
   (patch_id_type_rejected goodEnvX).2 (by decide)⟩

/-! # Normalizer (normalizeToEnvelope and normalizeCommandArray) -/

/-- The guard `typeof v === "string"` on an optional property read. -/
def isStrOpt : Option JVal → Bool
  | some (.str _) => true
  | _ => false

/-- Rest-destructuring on an object value. -/
def removeField (j : JVal) (k : String) : JVal :=
  match j with
  | .obj fs => .obj (removeKey fs k)
  | _ => j

/-- The nullish coalescing operator `v ?? d` on a property read (null and
undefined both fall through to the default). -/
def coalesce (v : Option JVal) (d : JVal) : JVal :=
  match v with
  | some .null => d
  | some x => x
  | none => d

/-- Truthiness of a key inside a field list. -/
def truthyKey (fs : List (String × JVal)) (k : String) : Bool :=
  match getKey fs k with
  | some v => jTruthy v
  | none => false

def isNumKey (fs : List (String × JVal)) (k : String) : Bool :=
  match getKey fs k with
  | some (.num _) => true
  | _ => false

def isArrKey (fs : List (String × JVal)) (k : String) : Bool :=
  match getKey fs k with
  | some (.arr _) => true
  | _ => false

/-- normalizeToEnvelope: unwrap an envelope wrapper, give refusal objects an
empty commands list, and wrap a bare single command.  The guards
`x && typeof x === "object"` accept exactly objects and arrays (null is
object-typed but falsy). -/
def normalizeToEnvelope (candidate : JVal) : JVal :=
  if !jIsObj candidate then candidate
  else
    let c :=
      match getField candidate "envelope" with
      | some v => if jIsObj v then v else candidate
      | none => candidate
    if (hasField c "refused" || hasField c "refusalReason" || hasField c "notes")
        && !hasField c "commands" then
      setField c "commands" (.arr [])
    else if hasField c "commands" then c
    else if isStrOpt (getField c "type") then
      .obj [("commands", .arr [c])]
    else c

def clamp01to100 (n : Rat) : Rat := max 0 (min 100 n)

/-- Template-literal stringification; only the dead synthesized-id branch of
normalizeLegacyCommand ever uses it (validated inputs carry an object), so
composite values are approximated. -/
def jsTemplateStr (v : JVal) : String :=
  match v with
  | .str s => s
  | .num q => toString q
  | .jbool b => toString b
  | .null => "null"
  | .arr _ => ""
  | .obj _ => "[object Object]"

/-- The per-shape coordinate clamp of the legacy add repair.  JS spreads any
value; a primitive shape entry would spread to an empty object, which
validated inputs never contain, so non-objects pass through. -/
def clampLegacyShape (s : JVal) : JVal :=
  match s with
  | .obj sfs =>
    let s1 := match getKey sfs "x" with
      | some (.num q) => setKey sfs "x" (.num (clamp01to100 q))
      | _ => sfs
    let s2 := match getKey s1 "y" with
      | some (.num q) => setKey s1 "y" (.num (clamp01to100 q))
      | _ => s1
    let s3 := match getKey s2 "points" with
      | some (.arr ps) =>
        setKey s2 "points" (.arr (ps.map (fun p =>
          match p with
          | .num q => .num (clamp01to100 q)
          | _ => p)))
      | _ => s2
    .obj s3
  | _ => s

/-- The object synthesized for an add command that put its fields at the top
level; Date.now() is passed in as the now string. -/
def buildLegacyAddObject (now : String) (cmd : JVal) : JVal :=
  let idv := coalesce (getField cmd "object_id")
    (coalesce (getField cmd "objectId")
      (.str ("obj_" ++ jsTemplateStr (coalesce (getField cmd "object_type") (.str "obj")) ++
        "_" ++ now)))
  let status : JVal :=
    if getField cmd "type" = some (.str "add_preview_object") then .str "preview"
    else .str "committed"
  let layer := coalesce (getField cmd "layer") (.str "ground")
  let transform := coalesce (getField cmd "transform")
    (.obj [("x", .num 50), ("y", .num 70), ("scale", .num 1), ("rotation", .num 0)])
  let shapes : List JVal :=
    match getField cmd "shapes" with
    | some (.arr xs) => xs.map clampLegacyShape
    | _ => []
  let objFields := [("id", idv), ("status", status), ("layer", layer), ("transform", transform)]
  let objFields2 :=
    match getField cmd "object_type" with
    | some .null => objFields
    | some tv => objFields ++ [("semanticTag", tv)]
    | none => objFields
  .obj [("type", (getField cmd "type").getD .null),
        ("object", .obj (objFields2 ++ [("shapes", .arr shapes)]))]

/-- normalizeLegacyCommand: rename command_type to type and object_id to
objectId, and synthesize a missing object wrapper for add commands. -/
def normalizeLegacyCommand (now : String) (cmd : JVal) : JVal :=
  if !jIsObj cmd then cmd
  else
    let c1 :=
      if !truthyField cmd "type" && isStrOpt (getField cmd "command_type") then
        removeField (setField cmd "type" ((getField cmd "command_type").getD .null))
          "command_type"
      else cmd
    let c2 :=
      if isStrOpt (getField c1 "object_id") && !truthyField c1 "objectId" then
        removeField (setField c1 "objectId" ((getField c1 "object_id").getD .null))
          "object_id"
      else c1
    if (getField c2 "type" = some (.str "add_preview_object") ∨
        getField c2 "type" = some (.str "add_object")) ∧
        truthyField c2 "object" = false then
      buildLegacyAddObject now c2
    else c2

def nonemptyStr (o : Option String) : Option String :=
  match o with
  | some s => if s = "" then none else some s
  | none => none

/-- The chain `(typeof cmd.id === "string" && cmd.id) || (... objectId) ||
(... object_id)`: the first nonempty string among the three fields (an empty
string is falsy and skipped, and fails the final length check). -/
def targetIdOf (c : JVal) : Option String :=
  match nonemptyStr (getStrField c "id") with
  | some s => some s
  | none =>
    match nonemptyStr (getStrField c "objectId") with
    | some s => some s
    | none => nonemptyStr (getStrField c "object_id")

/-- The assignment `cmd.id = target` when a target was found. -/
def setTargetId (c : JVal) : JVal :=
  match targetIdOf c with
  | some s => setField c "id" (.str s)
  | none => c

/-- The body of normalizeTargetId for commands that require a target id:
copy the found target into id, then drop objectId and object_id. -/
def applyTargetId (c : JVal) : JVal :=
  let c1 := setTargetId c
  let c2 := if hasField c1 "objectId" then removeField c1 "objectId" else c1
  if hasField c2 "object_id" then removeField c2 "object_id" else c2

mutual

/-- normalizeTargetId: fold object_id/objectId spellings into id on commands
that require a target id, and recurse into batch (batch is not a target-id
command, and target-id commands are not batch, so the two blocks of the
source are disjoint). -/
def normalizeTargetId (cmd : JVal) : JVal :=
  match cmd with
  | .obj fs =>
    if getKey fs "type" = some (.str "batch") then
      match scanTargetBatch fs with
      | some newCmds => .obj (setKey fs "commands" (.arr newCmds))
      | none => .obj fs
    else if getKey fs "type" = some (.str "update_preview_object") ∨
        getKey fs "type" = some (.str "commit_preview_object") ∨
        getKey fs "type" = some (.str "cancel_preview_object") ∨
        getKey fs "type" = some (.str "update_object") ∨
        getKey fs "type" = some (.str "delete_object") ∨
        getKey fs "type" = some (.str "set_path") then
      applyTargetId (.obj fs)
    else .obj fs
  | j => j

/-- The guard `cmd.type === "batch" && Array.isArray(cmd.commands)` plus the
recursive map, as a scan over the fields. -/
def scanTargetBatch : List (String × JVal) → Option (List JVal)
  | [] => none
  | (k, v) :: rest =>
    if k = "commands" then arrMapTargetId v else scanTargetBatch rest

def arrMapTargetId : JVal → Option (List JVal)
  | .arr xs => some (mapTargetIdList xs)
  | _ => none

def mapTargetIdList : List JVal → List JVal
  | [] => []
  | c :: cs => normalizeTargetId c :: mapTargetIdList cs

end

/-- The patch assembled by normalizeMissingPatch for an update command:
start from a copy of a truthy object patch (else an empty one) and fold in
stray top-level or object-carried fields that the patch does not already
hold.  An array patch would spread its index keys; validated update patches
are objects, so only the object case copies fields. -/
def buildPatchFields (c : JVal) : List (String × JVal) :=
  let patch0 : List (String × JVal) :=
    match getField c "patch" with
    | some (.obj pfs) => pfs
    | _ => []
  let p1 :=
    if truthyField c "transform" && !truthyKey patch0 "transform" then
      setKey patch0 "transform" ((getField c "transform").getD .null)
    else patch0
  let p2 :=
    if truthyField c "shapes" && !truthyKey p1 "shapes" then
      setKey p1 "shapes" ((getField c "shapes").getD .null)
    else p1
  match getField c "object" with
  | some (.obj ofs) =>
    let q1 :=
      if truthyKey ofs "transform" && !truthyKey p2 "transform" then
        setKey p2 "transform" ((getKey ofs "transform").getD .null)
      else p2
    let q2 :=
      if isArrKey ofs "shapes" && !truthyKey q1 "shapes" then
        setKey q1 "shapes" ((getKey ofs "shapes").getD .null)
      else q1
    let q3 :=
      if truthyKey ofs "semanticTag" && !truthyKey q2 "semanticTag" then
        setKey q2 "semanticTag" ((getKey ofs "semanticTag").getD .null)
      else q2
    let q4 :=
      if truthyKey ofs "layer" && !truthyKey q3 "layer" then
        setKey q3 "layer" ((getKey ofs "layer").getD .null)
      else q3
    if truthyKey ofs "status" && !truthyKey q4 "status" then
      setKey q4 "status" ((getKey ofs "status").getD .null)
    else q4
  | _ => p2

/-- The update branch of normalizeMissingPatch: rebuild the command with the
assembled patch unless it is empty. -/
def rebuildWithPatch (c : JVal) : JVal :=
  let patchF := buildPatchFields c
  if patchF.length = 0 then c
  else
    setField (removeField (removeField (removeField c "transform") "shapes") "object")
      "patch" (.obj patchF)

mutual

/-- normalizeMissingPatch: fold stray top-level or object-carried update
fields into the patch wrapper; recurse into batch. -/
def normalizeMissingPatch (cmd : JVal) : JVal :=
  match cmd with
  | .obj fs =>
    if getKey fs "type" = some (.str "batch") then
      match scanPatchBatch fs with
      | some newCmds => .obj (setKey fs "commands" (.arr newCmds))
      | none => .obj fs
    else if getKey fs "type" = some (.str "update_object") ∨
        getKey fs "type" = some (.str "update_preview_object") then
      rebuildWithPatch (.obj fs)
    else .obj fs
  | j => j

def scanPatchBatch : List (String × JVal) → Option (List JVal)
  | [] => none
  | (k, v) :: rest =>
    if k = "commands" then arrMapPatch v else scanPatchBatch rest

def arrMapPatch : JVal → Option (List JVal)
  | .arr xs => some (mapPatchList xs)
  | _ => none

def mapPatchList : List JVal → List JVal
  | [] => []
  | c :: cs => normalizeMissingPatch c :: mapPatchList cs

end

/-- normalizeLineShape: convert a legacy x1/y1/x2/y2 line into a points
line. -/
def normalizeLineShape (shape : JVal) : JVal :=
  match shape with
  | .obj sfs =>
    if getKey sfs "type" = some (.str "line") then
      if isNumKey sfs "x1" && isNumKey sfs "y1" && isNumKey sfs "x2" &&
          isNumKey sfs "y2" && !isArrKey sfs "points" then
        .obj (setKey (removeKey (removeKey (removeKey (removeKey sfs "x1") "y1")
            "x2") "y2") "points"
          (.arr [(getKey sfs "x1").getD .null, (getKey sfs "y1").getD .null,
                 (getKey sfs "x2").getD .null, (getKey sfs "y2").getD .null]))
      else shape
    else shape
  | s => s

def normalizeShapesInObject (obj : JVal) : JVal :=
  match getField obj "shapes" with
  | some (.arr xs) => setField obj "shapes" (.arr (xs.map normalizeLineShape))
  | _ => obj

/-- The truthiness of `normalized.patch?.shapes`. -/
def patchShapesTruthy (c : JVal) : Bool :=
  match getField c "patch" with
  | some pv => truthyField pv "shapes"
  | none => false

/-- The per-command body of normalizeCommandArray: legacy repair, target-id
repair, patch folding, then line-shape fixes on add objects and update patch
shapes.  A truthy non-array patch.shapes would throw a TypeError on .map in
JS; validated canonical inputs carry arrays there, and the non-array case is
modeled as a passthrough. -/
def normalizeOneCommand (now : String) (c : JVal) : JVal :=
  let normalized := normalizeMissingPatch (normalizeTargetId (normalizeLegacyCommand now c))
  if (getField normalized "type" = some (.str "add_preview_object") ∨
      getField normalized "type" = some (.str "add_object")) ∧
      truthyField normalized "object" = true then
    match getField normalized "object" with
    | some ov => setField normalized "object" (normalizeShapesInObject ov)
    | none => normalized
  else if (getField normalized "type" = some (.str "update_preview_object") ∨
      getField normalized "type" = some (.str "update_object")) ∧
      patchShapesTruthy normalized = true then
    match getField normalized "patch" with
    | some pv =>
      match getField pv "shapes" with
      | some (.arr xs) =>
        setField normalized "patch" (setField pv "shapes" (.arr (xs.map normalizeLineShape)))
      | _ => normalized
    | none => normalized
  else normalized

def normalizeCommandArray (now : String) (cmds : List JVal) : List JVal :=
  cmds.map (normalizeOneCommand now)

/-- The composition at the call site: normalizeToEnvelope, then, when the
result is an object with a commands array, normalizeCommandArray over it. -/
def normalizeEnvelopePipeline (now : String) (raw : JVal) : JVal :=
  let e := normalizeToEnvelope raw
  if jIsObj e then
    match getField e "commands" with
    | some (.arr xs) => setField e "commands" (.arr (normalizeCommandArray now xs))
    | _ => e
  else e

def cexEnvX : JVal := .obj [("commands", .arr []), ("envelope", .obj [])]

/-- Counterexample to C7 as stated: this envelope validates against
CommandEnvelopeSchema (zod objects ignore unknown keys such as the stray
envelope field), yet normalizeToEnvelope unwraps the truthy envelope object
and normalization does not return a structurally equal envelope. -/
theorem normalizer_idempotence_counterexample :
    validateEnvelope cexEnvX = true ∧
    normalizeEnvelopePipeline "0" cexEnvX ≠ cexEnvX :=
  ⟨by decide, by decide⟩

theorem getKey_none_of_not_hasKey {fs : List (String × JVal)} {k : String}
    (h : hasKey fs k = false) : getKey fs k = none := by
  unfold hasKey at h
  cases hg : getKey fs k with
  | none => rfl
  | some v => rw [hg] at h; cases h

theorem setKey_eq_of_getKey {fs : List (String × JVal)} {k : String} {v : JVal}
    (h : getKey fs k = some v) : setKey fs k v = fs := by
  induction fs with
  | nil => simp [getKey] at h
  | cons p rest ih =>
    cases p with
    | mk k1 v1 =>
      simp only [getKey] at h
      by_cases hk : k1 = k
      · rw [if_pos hk] at h
        injection h with h
        subst h
        subst hk
        simp [setKey]
      · rw [if_neg hk] at h
        simp [setKey, hk, ih h]

theorem removeKey_eq_of_not_hasKey {fs : List (String × JVal)} {k : String}
    (h : hasKey fs k = false) : removeKey fs k = fs := by
  induction fs with
  | nil => rfl
  | cons p rest ih =>
    cases p with
    | mk k1 v1 =>
      simp only [hasKey, getKey] at h
      by_cases hk : k1 = k
      · rw [if_pos hk] at h
        simp at h
      · rw [if_neg hk] at h
        simp only [removeKey, if_neg hk]
        rw [ih]
        unfold hasKey
        exact h

theorem map_id_of_mem {f : JVal → JVal} :
    ∀ (l : List JVal), (∀ x ∈ l, f x = x) → l.map f = l := by
  intro l
  induction l with
  | nil => intro _; rfl
  | cons x xs ih =>
    intro h
    simp only [List.map_cons]
    rw [h x (List.mem_cons_self x xs), ih (fun y hy => h y (List.mem_cons_of_mem x hy))]

/-! ## Canonical envelopes

The normalizer rewrites envelopes that carry legacy spellings, stray
top-level update fields, a wrapper envelope key, or legacy line shapes
inside an update patch.  A canonical envelope carries none of these; the
amended C7 states that normalization is the identity exactly on validated
canonical envelopes. -/

def noLegacyLine (s : JVal) : Bool :=
  match s with
  | .obj sfs =>
    !(decide (getKey sfs "type" = some (.str "line")) && isNumKey sfs "x1" &&
      isNumKey sfs "y1" && isNumKey sfs "x2" && isNumKey sfs "y2" &&
      !isArrKey sfs "points")
  | _ => true

/-- When the update patch carries a truthy shapes value, it is an array of
shapes that are not legacy lines (a truthy non-array would throw in JS). -/
def patchShapesCanonical (fs : List (String × JVal)) : Bool :=
  match getKey fs "patch" with
  | some pv =>
    match getField pv "shapes" with
    | some sv =>
      if jTruthy sv then
        match sv with
        | .arr xs => xs.all noLegacyLine
        | _ => false
      else true
    | none => true
  | none => true

mutual

/-- A command without the legacy spellings the normalizer repairs: no
objectId/object_id keys, no stray transform/shapes/object keys on updates,
no legacy line shapes in a truthy update patch; batch commands recurse. -/
def canonicalCmd (c : JVal) : Bool :=
  match c with
  | .obj fs =>
    !hasKey fs "objectId" && !hasKey fs "object_id" &&
    (if getKey fs "type" = some (.str "update_object") ∨
        getKey fs "type" = some (.str "update_preview_object") then
      !hasKey fs "transform" && !hasKey fs "shapes" && !hasKey fs "object" &&
        patchShapesCanonical fs
    else true) &&
    (if getKey fs "type" = some (.str "batch") then canonicalBatchField fs
    else true)
  | _ => false

def canonicalBatchField : List (String × JVal) → Bool
  | [] => true
  | (k, v) :: rest =>
    if k = "commands" then canonicalCmdArr v else canonicalBatchField rest

def canonicalCmdArr : JVal → Bool
  | .arr xs => canonicalCmdList xs
  | _ => true

def canonicalCmdList : List JVal → Bool
  | [] => true
  | c :: cs => canonicalCmd c && canonicalCmdList cs

end

/-- A validated envelope with no wrapper envelope key whose commands are all
canonical. -/
def canonicalEnvelope (j : JVal) : Bool :=
  match j with
  | .obj fs =>
    !hasKey fs "envelope" &&
    (match getKey fs "commands" with
     | some (.arr xs) => canonicalCmdList xs
     | _ => false)
  | _ => false

theorem canonicalCmd_obj (fs : List (String × JVal)) :
    canonicalCmd (.obj fs) =
      (!hasKey fs "objectId" && !hasKey fs "object_id" &&
      (if getKey fs "type" = some (.str "update_object") ∨
          getKey fs "type" = some (.str "update_preview_object") then
        !hasKey fs "transform" && !hasKey fs "shapes" && !hasKey fs "object" &&
          patchShapesCanonical fs
      else true) &&
      (if getKey fs "type" = some (.str "batch") then canonicalBatchField fs
      else true)) := rfl

theorem valid_type_truthy (fs : List (String × JVal))
    (hv : validateCommand (.obj fs) = true) : truthyField (.obj fs) "type" = true := by
  by_contra hft
  have hft2 : truthyField (.obj fs) "type" = false := by
    cases h : truthyField (.obj fs) "type"
    · rfl
    · exact absurd h hft
  have htr : ∀ t : String, t ≠ "" → ¬ getKey fs "type" = some (.str t) := by
    intro t ht hcon
    have htrue : truthyField (.obj fs) "type" = true := by
      simp only [truthyField, getField, hcon, jTruthy]
      simpa using ht
    rw [htrue] at hft2
    cases hft2
  rw [validateCommand_obj,
    if_neg (htr "set_scene_intent" (by decide)),
    if_neg (htr "add_preview_object" (by decide)),
    if_neg (htr "update_preview_object" (by decide)),
    if_neg (htr "commit_preview_object" (by decide)),
    if_neg (htr "cancel_preview_object" (by decide)),
    if_neg (htr "add_object" (by decide)),
    if_neg (htr "update_object" (by decide)),
    if_neg (htr "delete_object" (by decide)),
    if_neg (htr "set_background_gradient" (by decide)),
    if_neg (htr "set_ground_fill" (by decide)),
    if_neg (htr "set_path" (by decide)),
    if_neg (htr "batch" (by decide))] at hv
  cases hv

theorem validCommand_addPreview (fs : List (String × JVal))
    (h : getKey fs "type" = some (.str "add_preview_object"))
    (hv : validateCommand (.obj fs) = true) :
    reqKey fs "object" (fun v => validateSceneObject v && statusIs v "preview") = true := by
  rw [validateCommand_obj, if_neg (by rw [h]; decide), if_pos h] at hv
  exact hv

theorem validCommand_addObject (fs : List (String × JVal))
    (h : getKey fs "type" = some (.str "add_object"))
    (hv : validateCommand (.obj fs) = true) :
    reqKey fs "object" (fun v => validateSceneObject v && statusIs v "committed") = true := by
  rw [validateCommand_obj, if_neg (by rw [h]; decide), if_neg (by rw [h]; decide),
    if_neg (by rw [h]; decide), if_neg (by rw [h]; decide),
    if_neg (by rw [h]; decide), if_pos h] at hv
  exact hv

theorem validCommand_target_id (fs : List (String × JVal))
    (h : getKey fs "type" = some (.str "update_preview_object") ∨
      getKey fs "type" = some (.str "commit_preview_object") ∨
      getKey fs "type" = some (.str "cancel_preview_object") ∨
      getKey fs "type" = some (.str "update_object") ∨
      getKey fs "type" = some (.str "delete_object") ∨
      getKey fs "type" = some (.str "set_path"))
    (hv : validateCommand (.obj fs) = true) :
    reqKey fs "id" isStr = true := by
  rcases h with h | h | h | h | h | h
  · rw [validateCommand_obj, if_neg (by rw [h]; decide), if_neg (by rw [h]; decide),
      if_pos h, Bool.and_eq_true] at hv
    exact hv.1
  · rw [validateCommand_obj, if_neg (by rw [h]; decide), if_neg (by rw [h]; decide),
      if_neg (by rw [h]; decide), if_pos h] at hv
    exact hv
  · rw [validateCommand_obj, if_neg (by rw [h]; decide), if_neg (by rw [h]; decide),
      if_neg (by rw [h]; decide), if_neg (by rw [h]; decide), if_pos h] at hv
    exact hv
  · rw [validateCommand_obj, if_neg (by rw [h]; decide), if_neg (by rw [h]; decide),
      if_neg (by rw [h]; decide), if_neg (by rw [h]; decide),
      if_neg (by rw [h]; decide), if_neg (by rw [h]; decide), if_pos h,
      Bool.and_eq_true] at hv
    exact hv.1
  · rw [validateCommand_obj, if_neg (by rw [h]; decide), if_neg (by rw [h]; decide),
      if_neg (by rw [h]; decide), if_neg (by rw [h]; decide),
      if_neg (by rw [h]; decide), if_neg (by rw [h]; decide),
      if_neg (by rw [h]; decide), if_pos h] at hv
    exact hv
  · rw [validateCommand_obj, if_neg (by rw [h]; decide), if_neg (by rw [h]; decide),
      if_neg (by rw [h]; decide), if_neg (by rw [h]; decide),
      if_neg (by rw [h]; decide), if_neg (by rw [h]; decide),
      if_neg (by rw [h]; decide), if_neg (by rw [h]; decide),
      if_neg (by rw [h]; decide), if_neg (by rw [h]; decide), if_pos h,
      Bool.and_eq_true, Bool.and_eq_true, Bool.and_eq_true] at hv
    exact hv.1.1.1

theorem validateShape_obj (fs : List (String × JVal)) :
    validateShape (.obj fs) =
      (if getKey fs "type" = some (.str "rect") then
        validateShapeBase fs && reqKey fs "x" isNum && reqKey fs "y" isNum &&
          reqKey fs "width" isNonnegNum && reqKey fs "height" isNonnegNum &&
          optKey fs "cornerRadius" isNonnegNum
      else if getKey fs "type" = some (.str "circle") then
        validateShapeBase fs && reqKey fs "x" isNum && reqKey fs "y" isNum &&
          reqKey fs "radius" isNonnegNum
      else if getKey fs "type" = some (.str "ellipse") then
        validateShapeBase fs && reqKey fs "x" isNum && reqKey fs "y" isNum &&
          reqKey fs "radiusX" isNonnegNum && reqKey fs "radiusY" isNonnegNum
      else if getKey fs "type" = some (.str "line") then
        validateShapeBase fs &&
          reqKey fs "points" (fun v => validatePoints v && isEvenPoints v)
      else if getKey fs "type" = some (.str "polyline") then
        validateShapeBase fs && reqKey fs "points" validatePoints &&
          optKey fs "closed" isBool
      else if getKey fs "type" = some (.str "polygon") then
        validateShapeBase fs && reqKey fs "points" validatePoints
      else if getKey fs "type" = some (.str "path") then
        validateShapeBase fs && reqKey fs "d" (fun v => isShortStr v 800)
      else if getKey fs "type" = some (.str "text") then
        validateShapeBase fs && reqKey fs "x" isNum && reqKey fs "y" isNum &&
          reqKey fs "text" (fun v => isShortStr v 80) &&
          optKey fs "fontSize" (fun v => isNumBetween v 6 96) &&
          optKey fs "fontFamily" isStr &&
          optKey fs "align" (fun v =>
            v = .str "left" ∨ v = .str "center" ∨ v = .str "right")
      else false) := rfl

theorem normalizeLineShape_of_noLegacy (s : JVal) (h : noLegacyLine s = true) :
    normalizeLineShape s = s := by
  cases s with
  | obj sfs =>
    by_cases hty : getKey sfs "type" = some (.str "line")
    · simp only [noLegacyLine, hty, decide_eq_true_eq, Bool.not_eq_eq_eq_not,
        Bool.not_true] at h
      simp only [normalizeLineShape, if_pos hty]
      rw [if_neg]
      intro hcon
      simp only [decide_True, Bool.true_and] at h
      rw [hcon] at h
      cases h
    · simp only [normalizeLineShape, if_neg hty]
  | null => rfl
  | jbool b => rfl
  | num q => rfl
  | str s2 => rfl
  | arr xs => rfl

theorem normalizeLineShape_of_valid (s : JVal) (h : validateShape s = true) :
    normalizeLineShape s = s := by
  cases s with
  | obj sfs =>
    by_cases hty : getKey sfs "type" = some (.str "line")
    · rw [validateShape_obj, if_neg (by rw [hty]; decide),
        if_neg (by rw [hty]; decide), if_neg (by rw [hty]; decide),
        if_pos hty, Bool.and_eq_true] at h
      have hpts := h.2
      simp only [reqKey] at hpts
      cases hp : getKey sfs "points" with
      | none => rw [hp] at hpts; cases hpts
      | some pv =>
        rw [hp] at hpts
        rw [Bool.and_eq_true] at hpts
        have hval := hpts.1
        have harr : isArrKey sfs "points" = true := by
          cases pv with
          | arr xs => simp [isArrKey, hp]
          | null => simp [validatePoints] at hval
          | jbool b => simp [validatePoints] at hval
          | num q => simp [validatePoints] at hval
          | str s2 => simp [validatePoints] at hval
          | obj gfs => simp [validatePoints] at hval
        simp only [normalizeLineShape, if_pos hty]
        rw [if_neg]
        intro hcon
        rw [harr] at hcon
        simp at hcon
    · simp only [normalizeLineShape, if_neg hty]
  | null => rfl
  | jbool b => rfl
  | num q => rfl
  | str s2 => rfl
  | arr xs => rfl

theorem jTruthy_of_validSceneObject (v : JVal) (h : validateSceneObject v = true) :
    jTruthy v = true := by
  cases v with
  | obj fs => rfl
  | null => exact absurd h (by decide)
  | jbool b => simp [validateSceneObject] at h
  | num q => simp [validateSceneObject] at h
  | str s => simp [validateSceneObject] at h
  | arr xs => simp [validateSceneObject] at h

theorem normalizeLegacyCommand_id (now : String) (fs : List (String × JVal))
    (hv : validateCommand (.obj fs) = true) (hc : canonicalCmd (.obj fs) = true) :
    normalizeLegacyCommand now (.obj fs) = .obj fs := by
  have hty := valid_type_truthy fs hv
  rw [canonicalCmd_obj] at hc
  simp only [Bool.and_eq_true] at hc
  have hoid : hasKey fs "object_id" = false := by
    have h2 := hc.1.1.2
    cases h : hasKey fs "object_id"
    · rfl
    · rw [h] at h2; exact absurd h2 (by decide)
  have hnone : getKey fs "object_id" = none := getKey_none_of_not_hasKey hoid
  have h3 : ¬((getField (JVal.obj fs) "type" = some (.str "add_preview_object") ∨
      getField (JVal.obj fs) "type" = some (.str "add_object")) ∧
      truthyField (JVal.obj fs) "object" = false) := by
    rintro ⟨hadd, hobjf⟩
    have hobj : truthyField (JVal.obj fs) "object" = true := by
      rcases hadd with hA | hA
      · have hr := validCommand_addPreview fs (by simpa [getField] using hA) hv
        simp only [reqKey] at hr
        cases hg : getKey fs "object" with
        | none => rw [hg] at hr; exact absurd hr (by decide)
        | some ov =>
          rw [hg, Bool.and_eq_true] at hr
          have hto := jTruthy_of_validSceneObject ov hr.1
          simp [truthyField, getField, hg, hto]
      · have hr := validCommand_addObject fs (by simpa [getField] using hA) hv
        simp only [reqKey] at hr
        cases hg : getKey fs "object" with
        | none => rw [hg] at hr; exact absurd hr (by decide)
        | some ov =>
          rw [hg, Bool.and_eq_true] at hr
          have hto := jTruthy_of_validSceneObject ov hr.1
          simp [truthyField, getField, hg, hto]
    rw [hobj] at hobjf
    exact absurd hobjf (by decide)
  simp only [normalizeLegacyCommand]
  rw [if_neg (show ¬((!jIsObj (JVal.obj fs)) = true) by simp [jIsObj]),
    if_neg (show ¬((!truthyField (JVal.obj fs) "type" &&
      isStrOpt (getField (JVal.obj fs) "command_type")) = true) by simp [hty]),
    if_neg (show ¬((isStrOpt (getField (JVal.obj fs) "object_id") &&
      !truthyField (JVal.obj fs) "objectId") = true) by
        simp [getField, hnone, isStrOpt]),
    if_neg h3]

theorem canonicalBatchField_cons (k : String) (v : JVal) (rest : List (String × JVal)) :
    canonicalBatchField ((k, v) :: rest) =
      (if k = "commands" then canonicalCmdArr v else canonicalBatchField rest) := rfl

theorem scanTargetBatch_cons (k : String) (v : JVal) (rest : List (String × JVal)) :
    scanTargetBatch ((k, v) :: rest) =
      (if k = "commands" then arrMapTargetId v else scanTargetBatch rest) := rfl

theorem validateBatchField_commands :
    ∀ (fs : List (String × JVal)), validateBatchField fs = true →
      ∃ xs, getKey fs "commands" = some (.arr xs) ∧ validateCommandList xs = true := by
  intro fs
  induction fs with
  | nil => intro h; exact absurd h (by decide)
  | cons p rest ih =>
    intro h
    cases p with
    | mk k v =>
      by_cases hk : k = "commands"
      · subst hk
        rw [validateBatchField_cons, if_pos rfl] at h
        cases v with
        | arr xs =>
          refine ⟨xs, ?_, ?_⟩
          · simp [getKey]
          · rwa [show validateCmdArr (JVal.arr xs) = validateCommandList xs from rfl] at h
        | null => rw [show validateCmdArr JVal.null = false from rfl] at h; cases h
        | jbool b => rw [show validateCmdArr (JVal.jbool b) = false from rfl] at h; cases h
        | num q => rw [show validateCmdArr (JVal.num q) = false from rfl] at h; cases h
        | str s => rw [show validateCmdArr (JVal.str s) = false from rfl] at h; cases h
        | obj gfs => rw [show validateCmdArr (JVal.obj gfs) = false from rfl] at h; cases h
      · rw [validateBatchField_cons, if_neg hk] at h
        obtain ⟨xs, hg, hvl⟩ := ih h
        exact ⟨xs, by simp [getKey, hk, hg], hvl⟩

theorem canonicalBatchField_commands :
    ∀ (fs : List (String × JVal)) (v : JVal), canonicalBatchField fs = true →
      getKey fs "commands" = some v → canonicalCmdArr v = true := by
  intro fs
  induction fs with
  | nil => intro v _ hg; simp [getKey] at hg
  | cons p rest ih =>
    intro v hc hg
    cases p with
    | mk k w =>
      by_cases hk : k = "commands"
      · subst hk
        rw [canonicalBatchField_cons, if_pos rfl] at hc
        simp only [getKey, if_true] at hg
        injection hg with hg
        subst hg
        exact hc
      · rw [canonicalBatchField_cons, if_neg hk] at hc
        simp only [getKey] at hg
        rw [if_neg hk] at hg
        exact ih v hc hg

theorem scanTargetBatch_commands :
    ∀ (fs : List (String × JVal)) (v : JVal), getKey fs "commands" = some v →
      scanTargetBatch fs = arrMapTargetId v := by
  intro fs
  induction fs with
  | nil => intro v hg; simp [getKey] at hg
  | cons p rest ih =>
    intro v hg
    cases p with
    | mk k w =>
      by_cases hk : k = "commands"
      · subst hk
        simp only [getKey, if_true] at hg
        injection hg with hg
        subst hg
        rw [scanTargetBatch_cons, if_pos rfl]
      · simp only [getKey] at hg
        rw [if_neg hk] at hg
        rw [scanTargetBatch_cons, if_neg hk]
        exact ih v hg

theorem reqKey_isStr {fs : List (String × JVal)} {k : String}
    (h : reqKey fs k isStr = true) : ∃ s, getKey fs k = some (.str s) := by
  simp only [reqKey] at h
  cases hg : getKey fs k with
  | none => rw [hg] at h; cases h
  | some v =>
    rw [hg] at h
    cases v with
    | str s => exact ⟨s, rfl⟩
    | null => exact absurd h (by decide)
    | jbool b => simp [isStr] at h
    | num q => simp [isStr] at h
    | arr xs => simp [isStr] at h
    | obj gfs => simp [isStr] at h

theorem setTargetId_id (fs : List (String × JVal))
    (hid : ∃ s, getKey fs "id" = some (.str s))
    (hno1 : hasKey fs "objectId" = false) (hno2 : hasKey fs "object_id" = false) :
    setTargetId (.obj fs) = .obj fs := by
  obtain ⟨s, hs⟩ := hid
  have hg0 : getStrField (JVal.obj fs) "id" = some s := by
    simp [getStrField, getField, hs]
  have hg1 : getStrField (JVal.obj fs) "objectId" = none := by
    simp [getStrField, getField, getKey_none_of_not_hasKey hno1]
  have hg2 : getStrField (JVal.obj fs) "object_id" = none := by
    simp [getStrField, getField, getKey_none_of_not_hasKey hno2]
  by_cases hse : s = ""
  · have htgt : targetIdOf (JVal.obj fs) = none := by
      unfold targetIdOf
      rw [hg0, hg1, hg2]
      subst hse
      simp [nonemptyStr]
    unfold setTargetId
    rw [htgt]
  · have htgt : targetIdOf (JVal.obj fs) = some s := by
      unfold targetIdOf
      rw [hg0]
      simp [nonemptyStr, hse]
    unfold setTargetId
    rw [htgt]
    show JVal.obj (setKey fs "id" (.str s)) = JVal.obj fs
    rw [setKey_eq_of_getKey hs]

theorem applyTargetId_id (fs : List (String × JVal))
    (hid : ∃ s, getKey fs "id" = some (.str s))
    (hno1 : hasKey fs "objectId" = false) (hno2 : hasKey fs "object_id" = false) :
    applyTargetId (.obj fs) = .obj fs := by
  have hset := setTargetId_id fs hid hno1 hno2
  simp only [applyTargetId]
  rw [hset, if_neg (show ¬(hasField (JVal.obj fs) "objectId" = true) by
      simp [hasField, hno1]),
    if_neg (show ¬(hasField (JVal.obj fs) "object_id" = true) by
      simp [hasField, hno2])]

theorem normalizeTargetId_obj (fs : List (String × JVal)) :
    normalizeTargetId (.obj fs) =
      (if getKey fs "type" = some (.str "batch") then
        match scanTargetBatch fs with
        | some newCmds => .obj (setKey fs "commands" (.arr newCmds))
        | none => .obj fs
      else if getKey fs "type" = some (.str "update_preview_object") ∨
          getKey fs "type" = some (.str "commit_preview_object") ∨
          getKey fs "type" = some (.str "cancel_preview_object") ∨
          getKey fs "type" = some (.str "update_object") ∨
          getKey fs "type" = some (.str "delete_object") ∨
          getKey fs "type" = some (.str "set_path") then
        applyTargetId (.obj fs)
      else .obj fs) := rfl

theorem mapTargetIdList_cons (c : JVal) (cs : List JVal) :
    mapTargetIdList (c :: cs) = normalizeTargetId c :: mapTargetIdList cs := rfl

theorem canonicalCmdList_cons (c : JVal) (cs : List JVal) :
    canonicalCmdList (c :: cs) = (canonicalCmd c && canonicalCmdList cs) := rfl

theorem normalizeTargetId_id_strong :
    ∀ (n : Nat) (j : JVal), sizeOf j ≤ n → validateCommand j = true →
      canonicalCmd j = true → normalizeTargetId j = j := by
  intro n
  induction n with
  | zero =>
    intro j h
    exfalso
    cases j <;> simp at h
  | succ n ih =>
    intro j hsz hv hc
    cases j with
    | obj fs =>
      by_cases hbatch : getKey fs "type" = some (.str "batch")
      · have hvb : validateBatchField fs = true := by
          rwa [validateCommand_batch fs hbatch] at hv
        have hcb : canonicalBatchField fs = true := by
          rw [canonicalCmd_obj] at hc
          simp only [Bool.and_eq_true] at hc
          have h2 := hc.2
          rwa [if_pos hbatch] at h2
        obtain ⟨xs, hg, hvl⟩ := validateBatchField_commands fs hvb
        have hcl : canonicalCmdList xs = true := by
          have h3 := canonicalBatchField_commands fs (.arr xs) hcb hg
          rwa [show canonicalCmdArr (JVal.arr xs) = canonicalCmdList xs from rfl] at h3
        have hscan : scanTargetBatch fs = some (mapTargetIdList xs) :=
          scanTargetBatch_commands fs (.arr xs) hg
        have hxs : sizeOf xs ≤ n := by
          have h4 := sizeOf_getKey hg
          simp only [JVal.obj.sizeOf_spec] at hsz
          simp only [JVal.arr.sizeOf_spec] at h4
          omega
        have hmaps : mapTargetIdList xs = xs := by
          have hlist : ∀ (ys : List JVal), sizeOf ys ≤ n →
              validateCommandList ys = true → canonicalCmdList ys = true →
              mapTargetIdList ys = ys := by
            intro ys
            induction ys with
            | nil => intro _ _ _; rfl
            | cons c cs ihy =>
              intro hys hvy hcy
              rw [show validateCommandList (c :: cs) =
                  (validateCommand c && validateCommandList cs) from rfl,
                Bool.and_eq_true] at hvy
              rw [canonicalCmdList_cons, Bool.and_eq_true] at hcy
              have hc1 : sizeOf c ≤ n := by
                simp only [List.cons.sizeOf_spec] at hys; omega
              have hcs : sizeOf cs ≤ n := by
                simp only [List.cons.sizeOf_spec] at hys; omega
              rw [mapTargetIdList_cons, ih c hc1 hvy.1 hcy.1, ihy hcs hvy.2 hcy.2]
          exact hlist xs hxs hvl hcl
        rw [normalizeTargetId_obj, if_pos hbatch, hscan]
        show JVal.obj (setKey fs "commands" (.arr (mapTargetIdList xs))) = JVal.obj fs
        rw [hmaps, setKey_eq_of_getKey hg]
      · rw [canonicalCmd_obj] at hc
        simp only [Bool.and_eq_true] at hc
        have hno1 : hasKey fs "objectId" = false := by
          have h1 := hc.1.1.1
          simpa using h1
        have hno2 : hasKey fs "object_id" = false := by
          have h1 := hc.1.1.2
          simpa using h1
        by_cases htid : getKey fs "type" = some (.str "update_preview_object") ∨
            getKey fs "type" = some (.str "commit_preview_object") ∨
            getKey fs "type" = some (.str "cancel_preview_object") ∨
            getKey fs "type" = some (.str "update_object") ∨
            getKey fs "type" = some (.str "delete_object") ∨
            getKey fs "type" = some (.str "set_path")
        · have hreq := validCommand_target_id fs htid hv
          have hid := reqKey_isStr hreq
          rw [normalizeTargetId_obj, if_neg hbatch, if_pos htid]
          exact applyTargetId_id fs hid hno1 hno2
        · rw [normalizeTargetId_obj, if_neg hbatch, if_neg htid]
    | null => rfl
    | jbool b => rfl
    | num q => rfl
    | str s => rfl
    | arr xs => rfl

theorem scanPatchBatch_cons (k : String) (v : JVal) (rest : List (String × JVal)) :
    scanPatchBatch ((k, v) :: rest) =
      (if k = "commands" then arrMapPatch v else scanPatchBatch rest) := rfl

theorem scanPatchBatch_commands :
    ∀ (fs : List (String × JVal)) (v : JVal), getKey fs "commands" = some v →
      scanPatchBatch fs = arrMapPatch v := by
  intro fs
  induction fs with
  | nil => intro v hg; simp [getKey] at hg
  | cons p rest ih =>
    intro v hg
    cases p with
    | mk k w =>
      by_cases hk : k = "commands"
      · subst hk
        simp only [getKey, if_true] at hg
        injection hg with hg
        subst hg
        rw [scanPatchBatch_cons, if_pos rfl]
      · simp only [getKey] at hg
        rw [if_neg hk] at hg
        rw [scanPatchBatch_cons, if_neg hk]
        exact ih v hg

theorem mapPatchList_cons (c : JVal) (cs : List JVal) :
    mapPatchList (c :: cs) = normalizeMissingPatch c :: mapPatchList cs := rfl

theorem normalizeMissingPatch_obj (fs : List (String × JVal)) :
    normalizeMissingPatch (.obj fs) =
      (if getKey fs "type" = some (.str "batch") then
        match scanPatchBatch fs with
        | some newCmds => .obj (setKey fs "commands" (.arr newCmds))
        | none => .obj fs
      else if getKey fs "type" = some (.str "update_object") ∨
          getKey fs "type" = some (.str "update_preview_object") then
        rebuildWithPatch (.obj fs)
      else .obj fs) := rfl

theorem buildPatchFields_canonical (fs : List (String × JVal))
    (pfs : List (String × JVal)) (hp : getKey fs "patch" = some (.obj pfs))
    (hnoT : hasKey fs "transform" = false) (hnoS : hasKey fs "shapes" = false)
    (hnoO : hasKey fs "object" = false) :
    buildPatchFields (.obj fs) = pfs := by
  have hTnone : getKey fs "transform" = none := getKey_none_of_not_hasKey hnoT
  have hSnone : getKey fs "shapes" = none := getKey_none_of_not_hasKey hnoS
  have hOnone : getKey fs "object" = none := getKey_none_of_not_hasKey hnoO
  have htf : truthyField (JVal.obj fs) "transform" = false := by
    simp [truthyField, getField, hTnone]
  have hsf : truthyField (JVal.obj fs) "shapes" = false := by
    simp [truthyField, getField, hSnone]
  simp only [buildPatchFields, getField, hp, hTnone, hSnone, hOnone, htf, hsf,
    Bool.false_and, Bool.and_false, if_false]
  simp

theorem rebuildWithPatch_id (fs : List (String × JVal))
    (pfs : List (String × JVal)) (hp : getKey fs "patch" = some (.obj pfs))
    (hnoT : hasKey fs "transform" = false) (hnoS : hasKey fs "shapes" = false)
    (hnoO : hasKey fs "object" = false) :
    rebuildWithPatch (.obj fs) = .obj fs := by
  have hbp := buildPatchFields_canonical fs pfs hp hnoT hnoS hnoO
  simp only [rebuildWithPatch, hbp]
  by_cases hlen : pfs.length = 0
  · rw [if_pos hlen]
  · rw [if_neg hlen]
    have hr1 : removeField (JVal.obj fs) "transform" = JVal.obj fs := by
      simp [removeField, removeKey_eq_of_not_hasKey hnoT]
    have hr2 : removeField (JVal.obj fs) "shapes" = JVal.obj fs := by
      simp [removeField, removeKey_eq_of_not_hasKey hnoS]
    have hr3 : removeField (JVal.obj fs) "object" = JVal.obj fs := by
      simp [removeField, removeKey_eq_of_not_hasKey hnoO]
    rw [hr1, hr2, hr3]
    show JVal.obj (setKey fs "patch" (.obj pfs)) = JVal.obj fs
    rw [setKey_eq_of_getKey hp]

theorem normalizeMissingPatch_id_strong :
    ∀ (n : Nat) (j : JVal), sizeOf j ≤ n → validateCommand j = true →
      canonicalCmd j = true → normalizeMissingPatch j = j := by
  intro n
  induction n with
  | zero =>
    intro j h
    exfalso
    cases j <;> simp at h
  | succ n ih =>
    intro j hsz hv hc
    cases j with
    | obj fs =>
      by_cases hbatch : getKey fs "type" = some (.str "batch")
      · have hvb : validateBatchField fs = true := by
          rwa [validateCommand_batch fs hbatch] at hv
        have hcb : canonicalBatchField fs = true := by
          rw [canonicalCmd_obj] at hc
          simp only [Bool.and_eq_true] at hc
          have h2 := hc.2
          rwa [if_pos hbatch] at h2
        obtain ⟨xs, hg, hvl⟩ := validateBatchField_commands fs hvb
        have hcl : canonicalCmdList xs = true := by
          have h3 := canonicalBatchField_commands fs (.arr xs) hcb hg
          rwa [show canonicalCmdArr (JVal.arr xs) = canonicalCmdList xs from rfl] at h3
        have hscan : scanPatchBatch fs = some (mapPatchList xs) :=
          scanPatchBatch_commands fs (.arr xs) hg
        have hxs : sizeOf xs ≤ n := by
          have h4 := sizeOf_getKey hg
          simp only [JVal.obj.sizeOf_spec] at hsz
          simp only [JVal.arr.sizeOf_spec] at h4
          omega
        have hmaps : mapPatchList xs = xs := by
          have hlist : ∀ (ys : List JVal), sizeOf ys ≤ n →
              validateCommandList ys = true → canonicalCmdList ys = true →
              mapPatchList ys = ys := by
            intro ys
            induction ys with
            | nil => intro _ _ _; rfl
            | cons c cs ihy =>
              intro hys hvy hcy
              rw [show validateCommandList (c :: cs) =
                  (validateCommand c && validateCommandList cs) from rfl,
                Bool.and_eq_true] at hvy
              rw [canonicalCmdList_cons, Bool.and_eq_true] at hcy
              have hc1 : sizeOf c ≤ n := by
                simp only [List.cons.sizeOf_spec] at hys; omega
              have hcs : sizeOf cs ≤ n := by
                simp only [List.cons.sizeOf_spec] at hys; omega
              rw [mapPatchList_cons, ih c hc1 hvy.1 hcy.1, ihy hcs hvy.2 hcy.2]
          exact hlist xs hxs hvl hcl
        rw [normalizeMissingPatch_obj, if_pos hbatch, hscan]
        show JVal.obj (setKey fs "commands" (.arr (mapPatchList xs))) = JVal.obj fs
        rw [hmaps, setKey_eq_of_getKey hg]
      · by_cases hupd : getKey fs "type" = some (.str "update_object") ∨
            getKey fs "type" = some (.str "update_preview_object")
        · have hcu : (!hasKey fs "transform" && !hasKey fs "shapes" &&
              !hasKey fs "object" && patchShapesCanonical fs) = true := by
            rw [canonicalCmd_obj] at hc
            simp only [Bool.and_eq_true] at hc
            have h2 := hc.1.2
            rwa [if_pos hupd] at h2
          simp only [Bool.and_eq_true] at hcu
          have hnoT : hasKey fs "transform" = false := by
            have h1 := hcu.1.1.1; simpa using h1
          have hnoS : hasKey fs "shapes" = false := by
            have h1 := hcu.1.1.2; simpa using h1
          have hnoO : hasKey fs "object" = false := by
            have h1 := hcu.1.2; simpa using h1
          have hpatch : reqKey fs "patch" validatePatch = true := by
            rw [validateCommand_update fs hupd, Bool.and_eq_true] at hv
            exact hv.2
          simp only [reqKey] at hpatch
          cases hp : getKey fs "patch" with
          | none => rw [hp] at hpatch; cases hpatch
          | some pv =>
            rw [hp] at hpatch
            cases pv with
            | obj pfs =>
              rw [normalizeMissingPatch_obj, if_neg hbatch, if_pos hupd]
              exact rebuildWithPatch_id fs pfs hp hnoT hnoS hnoO
            | null => simp [validatePatch] at hpatch
            | jbool b => simp [validatePatch] at hpatch
            | num q => simp [validatePatch] at hpatch
            | str s => simp [validatePatch] at hpatch
            | arr xs => simp [validatePatch] at hpatch
        · rw [normalizeMissingPatch_obj, if_neg hbatch, if_neg hupd]
    | null => rfl
    | jbool b => rfl
    | num q => rfl
    | str s => rfl
    | arr xs => rfl

theorem normalizeShapesInObject_of_valid (ov : JVal)
    (h : validateSceneObject ov = true) : normalizeShapesInObject ov = ov := by
  cases ov with
  | obj ofs =>
    simp only [validateSceneObject, Bool.and_eq_true] at h
    have hsh := h.2
    simp only [reqKey] at hsh
    cases hg : getKey ofs "shapes" with
    | none => rw [hg] at hsh; cases hsh
    | some sv =>
      rw [hg] at hsh
      cases sv with
      | arr xs =>
        simp only [Bool.and_eq_true] at hsh
        have hall := hsh.2
        have hmap : xs.map normalizeLineShape = xs :=
          map_id_of_mem xs (fun x hx =>
            normalizeLineShape_of_valid x (List.all_eq_true.mp hall x hx))
        simp only [normalizeShapesInObject, getField, hg]
        rw [hmap]
        show JVal.obj (setKey ofs "shapes" (.arr xs)) = JVal.obj ofs
        rw [setKey_eq_of_getKey hg]
      | null => simp at hsh
      | jbool b => simp at hsh
      | num q => simp at hsh
      | str s => simp at hsh
      | obj gfs => simp at hsh
  | null => exact absurd h (by decide)
  | jbool b => simp [validateSceneObject] at h
  | num q => simp [validateSceneObject] at h
  | str s => simp [validateSceneObject] at h
  | arr xs => simp [validateSceneObject] at h

theorem normalizeOneCommand_id (now : String) (c : JVal)
    (hv : validateCommand c = true) (hc : canonicalCmd c = true) :
    normalizeOneCommand now c = c := by
  cases c with
  | obj fs =>
    have hleg := normalizeLegacyCommand_id now fs hv hc
    have htar := normalizeTargetId_id_strong (sizeOf (JVal.obj fs)) (.obj fs) le_rfl hv hc
    have hmp := normalizeMissingPatch_id_strong (sizeOf (JVal.obj fs)) (.obj fs) le_rfl hv hc
    have hnorm : normalizeMissingPatch (normalizeTargetId
        (normalizeLegacyCommand now (JVal.obj fs))) = JVal.obj fs := by
      rw [hleg, htar, hmp]
    simp only [normalizeOneCommand, hnorm]
    by_cases hadd : (getField (JVal.obj fs) "type" = some (JVal.str "add_preview_object") ∨
        getField (JVal.obj fs) "type" = some (JVal.str "add_object")) ∧
        truthyField (JVal.obj fs) "object" = true
    · rw [if_pos hadd]
      have hov : ∃ ov, getKey fs "object" = some ov ∧ validateSceneObject ov = true := by
        rcases hadd.1 with hA | hA
        · have hr := validCommand_addPreview fs (by simpa [getField] using hA) hv
          simp only [reqKey] at hr
          cases hg : getKey fs "object" with
          | none => rw [hg] at hr; cases hr
          | some ov =>
            rw [hg, Bool.and_eq_true] at hr
            exact ⟨ov, rfl, hr.1⟩
        · have hr := validCommand_addObject fs (by simpa [getField] using hA) hv
          simp only [reqKey] at hr
          cases hg : getKey fs "object" with
          | none => rw [hg] at hr; cases hr
          | some ov =>
            rw [hg, Bool.and_eq_true] at hr
            exact ⟨ov, rfl, hr.1⟩
      obtain ⟨ov, hgov, hvov⟩ := hov
      have hshp := normalizeShapesInObject_of_valid ov hvov
      rw [show getField (JVal.obj fs) "object" = some ov by simp [getField, hgov]]
      show setField (JVal.obj fs) "object" (normalizeShapesInObject ov) = JVal.obj fs
      rw [hshp]
      show JVal.obj (setKey fs "object" ov) = JVal.obj fs
      rw [setKey_eq_of_getKey hgov]
    · rw [if_neg hadd]
      by_cases hupd : (getField (JVal.obj fs) "type" = some (JVal.str "update_preview_object") ∨
          getField (JVal.obj fs) "type" = some (JVal.str "update_object")) ∧
          patchShapesTruthy (JVal.obj fs) = true
      · rw [if_pos hupd]
        have hupd2 : getKey fs "type" = some (.str "update_object") ∨
            getKey fs "type" = some (.str "update_preview_object") := by
          rcases hupd.1 with hA | hA
          · right; simpa [getField] using hA
          · left; simpa [getField] using hA
        have hpsc : patchShapesCanonical fs = true := by
          rw [canonicalCmd_obj] at hc
          simp only [Bool.and_eq_true] at hc
          have h2 := hc.1.2
          rw [if_pos hupd2] at h2
          simp only [Bool.and_eq_true] at h2
          exact h2.2
        have hpt := hupd.2
        simp only [patchShapesTruthy, getField] at hpt
        cases hp : getKey fs "patch" with
        | none => rw [hp] at hpt; cases hpt
        | some pv =>
          rw [hp] at hpt
          simp only [patchShapesCanonical, hp] at hpsc
          cases pv with
          | obj pfsv =>
            simp only [truthyField, getField] at hpt
            cases hgs : getKey pfsv "shapes" with
            | none => rw [hgs] at hpt; cases hpt
            | some sv =>
              rw [hgs] at hpt
              simp only [getField, hgs] at hpsc
              rw [if_pos (show jTruthy sv = true from hpt)] at hpsc
              cases sv with
              | arr xs =>
                have hmap : xs.map normalizeLineShape = xs :=
                  map_id_of_mem xs (fun x hx =>
                    normalizeLineShape_of_noLegacy x (List.all_eq_true.mp hpsc x hx))
                rw [show getField (JVal.obj fs) "patch" = some (JVal.obj pfsv) by
                  simp [getField, hp]]
                simp only [getField, hgs]
                rw [hmap]
                show JVal.obj (setKey fs "patch" (.obj (setKey pfsv "shapes" (.arr xs)))) =
                  JVal.obj fs
                rw [setKey_eq_of_getKey hgs, setKey_eq_of_getKey hp]
              | null => cases hpsc
              | jbool b => cases hpsc
              | num q => cases hpsc
              | str s => cases hpsc
              | obj gfs => cases hpsc
          | null => simp [truthyField, getField] at hpt
          | jbool b =>
            simp only [truthyField, getField] at hpt
            cases hpt
          | num q =>
            simp only [truthyField, getField] at hpt
            cases hpt
          | str s =>
            simp only [truthyField, getField] at hpt
            cases hpt
          | arr ys =>
            simp only [truthyField, getField] at hpt
            cases hpt
      · rw [if_neg hupd]
  | null => exact absurd hv (by decide)
  | jbool b => rw [show validateCommand (JVal.jbool b) = false from rfl] at hv; cases hv
  | num q => rw [show validateCommand (JVal.num q) = false from rfl] at hv; cases hv
  | str s => rw [show validateCommand (JVal.str s) = false from rfl] at hv; cases hv
  | arr xs => rw [show validateCommand (JVal.arr xs) = false from rfl] at hv; cases hv

theorem validateCommandList_mem :
    ∀ (xs : List JVal), validateCommandList xs = true →
      ∀ c ∈ xs, validateCommand c = true := by
  intro xs
  induction xs with
  | nil => intro _ c hc; cases hc
  | cons x rest ih =>
    intro h c hc
    rw [show validateCommandList (x :: rest) =
        (validateCommand x && validateCommandList rest) from rfl,
      Bool.and_eq_true] at h
    rcases List.mem_cons.mp hc with hx | hx
    · subst hx; exact h.1
    · exact ih h.2 c hx

theorem canonicalCmdList_mem :
    ∀ (xs : List JVal), canonicalCmdList xs = true →
      ∀ c ∈ xs, canonicalCmd c = true := by
  intro xs
  induction xs with
  | nil => intro _ c hc; cases hc
  | cons x rest ih =>
    intro h c hc
    rw [canonicalCmdList_cons, Bool.and_eq_true] at h
    rcases List.mem_cons.mp hc with hx | hx
    · subst hx; exact h.1
    · exact ih h.2 c hx

theorem normalizeToEnvelope_canonical (fs : List (String × JVal))
    (hcmds : ∃ xs, getKey fs "commands" = some (.arr xs))
    (henv : hasKey fs "envelope" = false) :
    normalizeToEnvelope (.obj fs) = .obj fs := by
  obtain ⟨xs, hg⟩ := hcmds
  simp [normalizeToEnvelope, getField, getKey_none_of_not_hasKey henv, jIsObj,
    hasField, hasKey, hg]

/-- C7 (amended): on envelopes that validate against CommandEnvelopeSchema and
are canonical — no stray envelope wrapper key, and every command free of the
legacy spellings the normalizer repairs (no objectId/object_id keys, no stray
transform/shapes/object keys on updates, truthy update patch shapes held as
arrays without legacy x1/y1/x2/y2 lines, recursively through batch) — the
normalization pipeline returns the input unchanged, so a second run equals
the first and normalization is idempotent there. -/
theorem normalizer_idempotent_on_canonical (now : String) (j : JVal)
    (hv : validateEnvelope j = true) (hc : canonicalEnvelope j = true) :
    normalizeEnvelopePipeline now j = j := by
  cases j with
  | obj fs =>
    simp only [validateEnvelope, Bool.and_eq_true] at hv
    have hcm := hv.1.1.1
    simp only [canonicalEnvelope, Bool.and_eq_true] at hc
    have henv : hasKey fs "envelope" = false := by simpa using hc.1
    cases hg : getKey fs "commands" with
    | none => rw [hg] at hcm; cases hcm
    | some cv =>
      rw [hg] at hcm
      cases cv with
      | arr xs =>
        have hvl : validateCommandList xs = true := hcm
        have hcl : canonicalCmdList xs = true := by
          have h2 := hc.2
          rw [hg] at h2
          exact h2
        have hmap : normalizeCommandArray now xs = xs := by
          unfold normalizeCommandArray
          exact map_id_of_mem xs (fun c hx =>
            normalizeOneCommand_id now c (validateCommandList_mem xs hvl c hx)
              (canonicalCmdList_mem xs hcl c hx))
        have hne := normalizeToEnvelope_canonical fs ⟨xs, hg⟩ henv
        simp only [normalizeEnvelopePipeline, hne]
        rw [if_pos (show jIsObj (JVal.obj fs) = true from rfl)]
        rw [show getField (JVal.obj fs) "commands" = some (JVal.arr xs) by
          simp [getField, hg]]
        show setField (JVal.obj fs) "commands" (.arr (normalizeCommandArray now xs)) =
          JVal.obj fs
        rw [hmap]
        show JVal.obj (setKey fs "commands" (.arr xs)) = JVal.obj fs
        rw [setKey_eq_of_getKey hg]
      | null => cases hcm
      | jbool b => simp at hcm
      | num q => simp at hcm
      | str s => simp at hcm
      | obj gfs => simp at hcm
  | null => exact absurd hv (by decide)
  | jbool b => simp [validateEnvelope] at hv
  | num q => simp [validateEnvelope] at hv
  | str s => simp [validateEnvelope] at hv
  | arr ys => simp [validateEnvelope] at hv

def canEnvX : JVal :=
  .obj [("commands", .arr [.obj [("type", .str "delete_object"), ("id", .str "tree-1")]]),
        ("notes", .str "prune")]

theorem normalizer_idempotent_on_canonical_witness :
    validateEnvelope canEnvX = true ∧ canonicalEnvelope canEnvX = true ∧
    normalizeEnvelopePipeline "0" canEnvX = canEnvX :=
  ⟨by decide, by decide,
    normalizer_idempotent_on_canonical "0" canEnvX (by decide) (by decide)⟩
